import Mathlib

/-!
# Verification of the camt-parser decimal/projection/normalization core

Shallow embedding of the camt-parser C++ sources
(`camt_parser_pugi.hpp`, `camt_csv.hpp`, `camt_model.hpp`, `gvc_map.hpp`)
into Lean 4, together with proofs about the embedded definitions.

Modelling conventions:
* C++ `std::string` is modelled as Lean `String` / `List Char`; the C++ code
  operates on bytes while Lean chars are unicode scalars — the two coincide on
  ASCII data, which is all the verified properties depend on.
* `std::int64_t` values are modelled as `Int` together with the explicit range
  checks performed by the source; where the source itself performs a signed
  operation that can overflow (undefined behaviour in C++), the operation is
  modelled by two's-complement wrap-around (`wrap64`), the behaviour of the
  common targets.
* `double` is modelled as `ℚ` (exact arithmetic); the concrete comparisons
  settled below have margins that are many orders of magnitude larger than
  IEEE-754 double rounding error, so the branch decisions coincide.
* Fallible C++ code (``std::stoi`` which may throw) is modelled with `Option`,
  `none` standing for a thrown exception.
-/

namespace Camt

/-- 2^63 - 1, `std::numeric_limits<int64_t>::max()`. -/
def INT64_MAX : Int := 9223372036854775807

/-- -2^63, `std::numeric_limits<int64_t>::min()`. -/
def INT64_MIN : Int := -9223372036854775808

/-- 2^64 - 1, `std::numeric_limits<uint64_t>::max()`. -/
def UINT64_MAX : Nat := 18446744073709551615

/-- Two's-complement wrap-around into the signed 64-bit range; used to model
the result of a C++ signed addition that overflows (UB in C++, wrap-around on
the common targets). -/
def wrap64 (x : Int) : Int := (x + 2 ^ 63) % 2 ^ 64 - 2 ^ 63

/-- Characters removed by the first cleanup pass of `dec_to_minor`:
space, tab, CR, LF, apostrophe, underscore and the 0xA0 (NBSP) byte. -/
def isStrippedChar (c : Char) : Bool :=
  c = ' ' || c = Char.ofNat 9 || c = Char.ofNat 13 || c = Char.ofNat 10 ||
  c = Char.ofNat 39 || c = '_' || c = Char.ofNat 0xA0

/-- Index of the last occurrence of `c` in `l` (C++ `find_last_of`). -/
def findLastPos (l : List Char) (c : Char) : Option Nat :=
  match l with
  | [] => none
  | x :: xs =>
    match findLastPos xs c with
    | some i => some (i + 1)
    | none => if x = c then some 0 else none

/-- Index of the first occurrence of `c` in `l` (C++ `find`). -/
def findFirstPos (l : List Char) (c : Char) : Option Nat :=
  match l with
  | [] => none
  | x :: xs => if x = c then some 0 else (findFirstPos xs c).map (· + 1)

/-- The `only_digits` helper of `dec_to_minor`: every character is in '0'..'9'. -/
def onlyDigits (t : List Char) : Bool := t.all (fun c => c.isDigit)

/-- The `parse_u64` helper of `dec_to_minor`: accumulate decimal digits into a
`uint64`, failing (`none`) on a non-digit or on unsigned-64 overflow. -/
def parse_u64 (t : List Char) : Option Nat :=
  t.foldl
    (fun acc c =>
      match acc with
      | none => none
      | some out =>
        if c.isDigit then
          let d := c.toNat - 48
          if out > (UINT64_MAX - d) / 10 then none else some (out * 10 + d)
        else none)
    (some 0)

/-- The `pow10_i64` helper of `dec_to_minor`: 10^e as a checked `int64`. -/
def pow10_i64 (e : Nat) : Option Int :=
  (List.range e).foldl
    (fun acc _ =>
      match acc with
      | none => none
      | some out => if out > INT64_MAX.tdiv 10 then none else some (out * 10))
    (some 1)

/-- The `mul_check` helper of `dec_to_minor`: `int64` multiplication with
overflow detection (C++ integer division truncates, hence `Int.tdiv`). -/
def mul_check (a b : Int) : Option Int :=
  if a = 0 ∨ b = 0 then some 0
  else if a > 0 then
    if b > 0 then
      if a > INT64_MAX.tdiv b then none else some (a * b)
    else
      if b < INT64_MIN.tdiv a then none else some (a * b)
  else
    if b > 0 then
      if a < INT64_MIN.tdiv b then none else some (a * b)
    else
      if a ≠ 0 ∧ b < INT64_MAX.tdiv a then none else some (a * b)

/-- Stage 1 of `dec_to_minor`: remove simple ASCII groupings/spaces. -/
def dtm_clean (s0 : String) : List Char :=
  s0.toList.filter (fun c => !isStrippedChar c)

/-- Stage 2 of `dec_to_minor`: strip a surrounding `( … )` pair, recording the
negation it denotes. -/
def dtm_parens (l : List Char) : Bool × List Char :=
  if l.head? = some '(' ∧ l.getLast? = some ')' then (true, (l.drop 1).dropLast)
  else (false, l)

/-- Stage 3 of `dec_to_minor`: consume one leading `+`/`-`, combining a minus
with the parenthesis negation. -/
def dtm_signC (p : Bool × List Char) : Bool × List Char :=
  match p.2 with
  | [] => (p.1, ([] : List Char))
  | c :: rest =>
    if c = '+' then (p.1, rest)
    else if c = '-' then (!p.1, rest)
    else (p.1, c :: rest)

/-- Stage 4 of `dec_to_minor`: determine the decimal separator — whichever of
the last `.` and the last `,` occurs later in the string. -/
def dtm_decSep (l : List Char) : Option Char :=
  match findLastPos l '.', findLastPos l ',' with
  | none, none => none
  | none, some _ => some ','
  | some _, none => some '.'
  | some d, some k => if d > k then some '.' else some ','

/-- Stage 5 of `dec_to_minor`: split at the last decimal separator and remove
every occurrence of the other (grouping) separator from both parts. -/
def dtm_parts (l : List Char) : List Char × List Char :=
  match dtm_decSep l with
  | none => (l, ([] : List Char))
  | some dc =>
    let spl :=
      match findLastPos l dc with
      | some pos => (l.take pos, l.drop (pos + 1))
      | none => (l, ([] : List Char))
    let other := if dc = '.' then ',' else '.'
    (spl.1.filter (fun c => c ≠ other), spl.2.filter (fun c => c ≠ other))

/-- Stage 6 of `dec_to_minor`: digit validation, fraction adjustment to the
currency exponent and checked 64-bit arithmetic.  The negative-branch
combination step of the source performs `scaled_major + fp_s` after a guard
comparing against `INT64_MIN + fp_s`; when that signed addition overflows
(UB in C++) it is modelled by `wrap64`. -/
def dtm_number (neg : Bool) (intp1 frac1 : List Char) (exp0 : Int) : Int :=
  let intp := if intp1 = [] then ['0'] else intp1
  if !(onlyDigits intp && onlyDigits frac1) then 0
  else
    let exp : Nat := (max exp0 0).toNat
    let frac :=
      if frac1.length > exp then frac1.take exp
      else frac1 ++ List.replicate (exp - frac1.length) '0'
    match parse_u64 intp, parse_u64 frac with
    | some ip, some fp =>
      if (ip : Int) > INT64_MAX then 0
      else
        match pow10_i64 exp with
        | none => 0
        | some scale =>
          match mul_check (ip : Int) scale with
          | none => 0
          | some scaled_major =>
            if (fp : Int) > INT64_MAX then 0
            else if neg then
              if scaled_major < INT64_MIN + (fp : Int) then 0
              else
                let v := wrap64 (scaled_major + (fp : Int))
                if v > 0 then -v else v
            else
              if scaled_major > INT64_MAX - (fp : Int) then 0
              else scaled_major + (fp : Int)
    | _, _ => 0

/-- Embedding of `dec_to_minor` (camt_parser_pugi.hpp): localized decimal text
to integer minor units, assembled from the six stages above, which follow the
source line by line. -/
def dec_to_minor (s0 : String) (exp0 : Int) : Int :=
  let sp := dtm_signC (dtm_parens (dtm_clean s0))
  let pa := dtm_parts sp.2
  dtm_number sp.1 pa.1 pa.2 exp0

/-- ISO-4217 exponent table `ccy_exp` (camt_parser_pugi.hpp). -/
def ccy_exp (ccy : String) : Nat :=
  if ccy = "JPY" ∨ ccy = "KRW" ∨ ccy = "VND" then 0
  else if ccy = "BHD" ∨ ccy = "KWD" ∨ ccy = "OMR" ∨ ccy = "TND" then 3
  else if ccy = "CLF" then 4
  else 2

/-- The spec-level `parse_decimal(text, currency)` operation: the source
composes `dec_to_minor` with the currency-exponent lookup (see `parse_amount`
in camt_parser_pugi.hpp). -/
def parse_decimal (s : String) (ccy : String) : Int := dec_to_minor s (ccy_exp ccy)

example : parse_decimal "1.234,56" "EUR" = 123456 := by decide
example : parse_decimal "1,234.56" "EUR" = 123456 := by decide
example : parse_decimal "(50,00)" "EUR" = -5000 := by decide

/-! ### Separator-swap machinery (claim C1) -/

/-- Swap the decimal-separator characters `.` and `,`; fix everything else. -/
def swapSep (c : Char) : Char := if c = '.' then ',' else if c = ',' then '.' else c

/-- Swap `.` and `,` throughout a string. -/
def swapSeps (s : String) : String := String.mk (s.toList.map swapSep)

theorem swapSep_invol (c : Char) : swapSep (swapSep c) = c := by
  by_cases h1 : c = '.'
  · subst h1; decide
  · by_cases h2 : c = ','
    · subst h2; decide
    · simp [swapSep, h1, h2]

theorem swapSep_eq_iff (x c : Char) : swapSep x = c ↔ x = swapSep c := by
  constructor
  · intro h; rw [← h, swapSep_invol]
  · intro h; rw [h, swapSep_invol]

theorem isStrippedChar_swapSep (c : Char) : isStrippedChar (swapSep c) = isStrippedChar c := by
  by_cases h1 : c = '.'
  · subst h1; decide
  · by_cases h2 : c = ','
    · subst h2; decide
    · simp [swapSep, h1, h2]

theorem isDigit_swapSep (c : Char) : (swapSep c).isDigit = c.isDigit := by
  by_cases h1 : c = '.'
  · subst h1; decide
  · by_cases h2 : c = ','
    · subst h2; decide
    · simp [swapSep, h1, h2]

theorem swapSep_fix_of_ne (c : Char) (h1 : c ≠ '.') (h2 : c ≠ ',') : swapSep c = c := by
  simp [swapSep, h1, h2]

theorem findLastPos_map_swapSep (l : List Char) (c : Char) :
    findLastPos (l.map swapSep) c = findLastPos l (swapSep c) := by
  induction l with
  | nil => rfl
  | cons x xs ih =>
    simp only [List.map_cons, findLastPos, ih]
    cases findLastPos xs (swapSep c) with
    | some i => rfl
    | none =>
      by_cases h : x = swapSep c
      · simp [h, swapSep_invol]
      · have hx : ¬ swapSep x = c := fun hc => h ((swapSep_eq_iff x c).mp hc)
        simp [h, hx]

theorem findLastPos_get (l : List Char) (c : Char) (i : Nat)
    (h : findLastPos l c = some i) : i < l.length ∧ l.getD i 'A' = c := by
  induction l generalizing i with
  | nil => simp [findLastPos] at h
  | cons x xs ih =>
    simp only [findLastPos] at h
    cases hx : findLastPos xs c with
    | some j =>
      rw [hx] at h
      cases h
      have := ih j hx
      exact ⟨by simpa using Nat.succ_lt_succ this.1, by simpa using this.2⟩
    | none =>
      rw [hx] at h
      by_cases he : x = c
      · simp [he] at h
        cases h
        simp [he]
      · simp [he] at h

theorem dtm_decSep_cases (l : List Char) (dc : Char) (h : dtm_decSep l = some dc) :
    dc = '.' ∨ dc = ',' := by
  unfold dtm_decSep at h
  cases h1 : findLastPos l '.' <;> cases h2 : findLastPos l ',' <;> rw [h1, h2] at h <;>
    try split at h
  all_goals simp at h
  all_goals try (split at h <;> simp at h)
  all_goals
    first
    | exact Or.inl h.symm
    | exact Or.inl h
    | exact Or.inr h.symm
    | exact Or.inr h

theorem dtm_clean_swapSeps (s : String) :
    dtm_clean (swapSeps s) = (dtm_clean s).map swapSep := by
  show ((s.toList.map swapSep).filter _) = _
  rw [List.filter_map]
  congr 1
  apply List.filter_congr
  intro c _
  simp [Function.comp, isStrippedChar_swapSep]

theorem dtm_parens_map_swapSep (l : List Char) :
    dtm_parens (l.map swapSep) = ((dtm_parens l).1, (dtm_parens l).2.map swapSep) := by
  unfold dtm_parens
  have hcond : ((l.map swapSep).head? = some '(' ∧ (l.map swapSep).getLast? = some ')') ↔
      (l.head? = some '(' ∧ l.getLast? = some ')') := by
    rw [List.head?_map, List.getLast?_map]
    constructor
    · rintro ⟨h1, h2⟩
      rw [Option.map_eq_some'] at h1 h2
      obtain ⟨a, ha, ha2⟩ := h1
      obtain ⟨b, hb, hb2⟩ := h2
      have : a = '(' := by rw [swapSep_eq_iff] at ha2; simpa using ha2
      have hb' : b = ')' := by rw [swapSep_eq_iff] at hb2; simpa using hb2
      subst this; subst hb'; exact ⟨ha, hb⟩
    · rintro ⟨h1, h2⟩
      rw [h1, h2]
      constructor <;> rfl
  by_cases h : l.head? = some '(' ∧ l.getLast? = some ')'
  · rw [if_pos (hcond.mpr h), if_pos h]
    simp [List.map_drop, List.map_dropLast]
  · rw [if_neg (fun hc => h (hcond.mp hc)), if_neg h]

theorem dtm_signC_map_swapSep (b : Bool) (l : List Char) :
    dtm_signC (b, l.map swapSep) =
      ((dtm_signC (b, l)).1, (dtm_signC (b, l)).2.map swapSep) := by
  cases l with
  | nil => rfl
  | cons c rest =>
    simp only [dtm_signC, List.map_cons]
    by_cases h1 : c = '+'
    · subst h1; simp [swapSep]
    · have hs1 : ¬ swapSep c = '+' := by
        intro hc; rw [swapSep_eq_iff] at hc; exact h1 (by simpa using hc)
      by_cases h2 : c = '-'
      · subst h2; simp [swapSep]
      · have hs2 : ¬ swapSep c = '-' := by
          intro hc; rw [swapSep_eq_iff] at hc; exact h2 (by simpa using hc)
        simp [h1, h2, hs1, hs2]

theorem dtm_decSep_map_swapSep (l : List Char) :
    dtm_decSep (l.map swapSep) = (dtm_decSep l).map swapSep := by
  have e1 : swapSep '.' = ',' := by decide
  have e2 : swapSep ',' = '.' := by decide
  have hd : findLastPos (l.map swapSep) '.' = findLastPos l ',' := by
    rw [findLastPos_map_swapSep, e1]
  have hc : findLastPos (l.map swapSep) ',' = findLastPos l '.' := by
    rw [findLastPos_map_swapSep, e2]
  unfold dtm_decSep
  rw [hd, hc]
  cases h1 : findLastPos l '.' with
  | none =>
    cases h2 : findLastPos l ',' with
    | none => rfl
    | some k =>
      show some '.' = Option.map swapSep (some ',')
      rw [Option.map_some', e2]
  | some d =>
    cases h2 : findLastPos l ',' with
    | none =>
      show some ',' = Option.map swapSep (some '.')
      rw [Option.map_some', e1]
    | some k =>
      have hne : d ≠ k := by
        intro he
        have g1 := findLastPos_get l '.' d h1
        have g2 := findLastPos_get l ',' k h2
        rw [he] at g1
        rw [g1.2] at g2
        exact absurd g2.2 (by decide)
      show (if k > d then some '.' else some ',') =
        Option.map swapSep (if d > k then some '.' else some ',')
      rcases Nat.lt_trichotomy d k with hlt | heq | hgt
      · rw [if_pos hlt, if_neg (by omega), Option.map_some', e2]
      · exact absurd heq hne
      · rw [if_neg (by omega), if_pos hgt, Option.map_some', e1]

theorem filter_ne_map_swapSep (X : List Char) (a : Char) :
    (X.map swapSep).filter (fun c => c ≠ swapSep a) =
      (X.filter (fun c => c ≠ a)).map swapSep := by
  rw [List.filter_map]
  congr 1
  apply List.filter_congr
  intro c _
  simp only [Function.comp]
  by_cases h : c = a
  · subst h; simp
  · have hh : ¬ swapSep c = swapSep a := fun hcc =>
      h (by rw [swapSep_eq_iff, swapSep_invol] at hcc; exact hcc)
    simp [h, hh]

theorem dtm_parts_map_swapSep (l : List Char) :
    dtm_parts (l.map swapSep) =
      ((dtm_parts l).1.map swapSep, (dtm_parts l).2.map swapSep) := by
  have e1 : swapSep '.' = ',' := by decide
  have e2 : swapSep ',' = '.' := by decide
  unfold dtm_parts
  rw [dtm_decSep_map_swapSep]
  cases hdc : dtm_decSep l with
  | none => simp
  | some dc =>
    simp only [Option.map_some']
    rw [findLastPos_map_swapSep, swapSep_invol]
    have hother : (if swapSep dc = '.' then ',' else '.') =
        swapSep (if dc = '.' then ',' else '.') := by
      rcases dtm_decSep_cases l dc hdc with h | h <;> subst h
      · rw [e1]; simp [e2]
      · rw [e2]; simp [e1]
    cases hp : findLastPos l dc with
    | none =>
      simp only [hother]
      rw [filter_ne_map_swapSep]
      rfl
    | some pos =>
      simp only [hother]
      rw [← List.map_take, ← List.map_drop, filter_ne_map_swapSep, filter_ne_map_swapSep]

theorem onlyDigits_map_swapSep (l : List Char) :
    onlyDigits (l.map swapSep) = onlyDigits l := by
  unfold onlyDigits
  rw [List.all_map]
  congr 1
  funext c
  exact isDigit_swapSep c

/-- A digit character is none of the special characters handled by the
pipeline, and is not stripped by the cleanup pass. -/
theorem char_digit_facts (c : Char) (h : c.isDigit = true) :
    c ≠ '.' ∧ c ≠ ',' ∧ c ≠ '(' ∧ c ≠ ')' ∧ c ≠ '+' ∧ c ≠ '-' ∧
      isStrippedChar c = false := by
  have hne : ∀ (d : Char), d.isDigit = false → c ≠ d := by
    intro d hd he
    rw [he] at h
    rw [h] at hd
    cases hd
  refine ⟨hne _ (by decide), hne _ (by decide), hne _ (by decide), hne _ (by decide),
    hne _ (by decide), hne _ (by decide), ?_⟩
  simp [isStrippedChar, hne ' ' (by decide), hne (Char.ofNat 9) (by decide),
    hne (Char.ofNat 13) (by decide), hne (Char.ofNat 10) (by decide),
    hne (Char.ofNat 39) (by decide), hne '_' (by decide), hne (Char.ofNat 0xA0) (by decide)]

theorem map_swapSep_of_onlyDigits (l : List Char) (h : onlyDigits l = true) :
    l.map swapSep = l := by
  induction l with
  | nil => rfl
  | cons x xs ih =>
    unfold onlyDigits at h
    rw [List.all_cons, Bool.and_eq_true] at h
    have hx := char_digit_facts x h.1
    rw [List.map_cons, swapSep_fix_of_ne x hx.1 hx.2.1, ih h.2]

theorem dtm_number_map_swapSep (neg : Bool) (a b : List Char) (e : Int) :
    dtm_number neg (a.map swapSep) (b.map swapSep) e = dtm_number neg a b e := by
  have hiff : (if a.map swapSep = [] then ['0'] else a.map swapSep) =
      (if a = [] then ['0'] else a).map swapSep := by
    by_cases ha : a = []
    · subst ha; rfl
    · rw [if_neg (by simpa using ha), if_neg ha]
  simp only [dtm_number]
  rw [hiff, onlyDigits_map_swapSep, onlyDigits_map_swapSep]
  by_cases hOK : (onlyDigits (if a = [] then ['0'] else a) && onlyDigits b) = true
  · have hand : onlyDigits (if a = [] then ['0'] else a) = true ∧ onlyDigits b = true := by
      simpa using hOK
    rw [map_swapSep_of_onlyDigits _ hand.1, map_swapSep_of_onlyDigits _ hand.2]
  · have hF : (onlyDigits (if a = [] then ['0'] else a) && onlyDigits b) = false :=
      Bool.eq_false_iff.mpr hOK
    rw [hF]
    rfl

/-- Claim C1, general part: swapping the two separator conventions throughout
the input never changes the parsed value. -/
theorem dec_to_minor_swapSeps (s : String) (e : Int) :
    dec_to_minor (swapSeps s) e = dec_to_minor s e := by
  have e3 : dtm_signC (dtm_parens (dtm_clean (swapSeps s))) =
      ((dtm_signC (dtm_parens (dtm_clean s))).1,
        (dtm_signC (dtm_parens (dtm_clean s))).2.map swapSep) := by
    rw [dtm_clean_swapSeps, dtm_parens_map_swapSep]
    exact dtm_signC_map_swapSep _ _
  have e4 : dtm_parts (dtm_signC (dtm_parens (dtm_clean (swapSeps s)))).2 =
      ((dtm_parts (dtm_signC (dtm_parens (dtm_clean s))).2).1.map swapSep,
        (dtm_parts (dtm_signC (dtm_parens (dtm_clean s))).2).2.map swapSep) := by
    rw [e3]
    exact dtm_parts_map_swapSep _
  show dtm_number (dtm_signC (dtm_parens (dtm_clean (swapSeps s)))).1
      (dtm_parts (dtm_signC (dtm_parens (dtm_clean (swapSeps s)))).2).1
      (dtm_parts (dtm_signC (dtm_parens (dtm_clean (swapSeps s)))).2).2 e =
    dtm_number (dtm_signC (dtm_parens (dtm_clean s))).1
      (dtm_parts (dtm_signC (dtm_parens (dtm_clean s))).2).1
      (dtm_parts (dtm_signC (dtm_parens (dtm_clean s))).2).2 e
  rw [e4, e3]
  exact dtm_number_map_swapSep _ _ _ _

/-- Unfolding of `dec_to_minor` as the composition of its stages. -/
theorem dec_to_minor_eq (s : String) (e : Int) :
    dec_to_minor s e =
      dtm_number (dtm_signC (dtm_parens (dtm_clean s))).1
        (dtm_parts (dtm_signC (dtm_parens (dtm_clean s))).2).1
        (dtm_parts (dtm_signC (dtm_parens (dtm_clean s))).2).2 e := rfl

theorem mem_digits (l : List Char) (h : onlyDigits l = true) :
    ∀ x ∈ l, x.isDigit = true := by
  intro x hx
  unfold onlyDigits at h
  exact List.all_eq_true.mp h x hx

theorem findLastPos_append_some (xs ys : List Char) (c : Char) (i : Nat)
    (h : findLastPos ys c = some i) :
    findLastPos (xs ++ ys) c = some (xs.length + i) := by
  induction xs with
  | nil => simpa using h
  | cons x l ih =>
    show (match findLastPos (l ++ ys) c with
      | some i => some (i + 1)
      | none => if x = c then some 0 else none) = some ((x :: l).length + i)
    rw [ih]
    show some (l.length + i + 1) = some ((x :: l).length + i)
    congr 1
    simp only [List.length_cons]
    omega

theorem findLastPos_append_none (xs ys : List Char) (c : Char)
    (h : findLastPos ys c = none) :
    findLastPos (xs ++ ys) c = findLastPos xs c := by
  induction xs with
  | nil => simpa using h
  | cons x l ih =>
    show (match findLastPos (l ++ ys) c with
      | some i => some (i + 1)
      | none => if x = c then some 0 else none) =
      (match findLastPos l c with
      | some i => some (i + 1)
      | none => if x = c then some 0 else none)
    rw [ih]

theorem findLastPos_eq_none (l : List Char) (c : Char) (h : ∀ x ∈ l, x ≠ c) :
    findLastPos l c = none := by
  induction l with
  | nil => rfl
  | cons x xs ih =>
    simp only [findLastPos, ih (fun y hy => h y (List.mem_cons_of_mem x hy))]
    simp [h x (List.mem_cons_self x xs)]

theorem filter_ne_eq_self (l : List Char) (a : Char) (h : ∀ x ∈ l, x ≠ a) :
    l.filter (fun c => c ≠ a) = l :=
  List.filter_eq_self.mpr (fun x hx => by simpa using h x hx)

theorem dtm_clean_mk_eq_self (l : List Char) (h : ∀ x ∈ l, isStrippedChar x = false) :
    dtm_clean (String.mk l) = l := by
  show l.filter _ = l
  apply List.filter_eq_self.mpr
  intro x hx
  simp [h x hx]

theorem dtm_parens_skip (l : List Char) (h : l.head? ≠ some '(') :
    dtm_parens l = (false, l) := by
  unfold dtm_parens
  rw [if_neg]
  intro hc
  exact h hc.1

theorem dtm_signC_skip (b : Bool) (l : List Char)
    (h1 : l.head? ≠ some '+') (h2 : l.head? ≠ some '-') :
    dtm_signC (b, l) = (b, l) := by
  cases l with
  | nil => rfl
  | cons c rest =>
    have hc1 : c ≠ '+' := fun he => h1 (by rw [he]; rfl)
    have hc2 : c ≠ '-' := fun he => h2 (by rw [he]; rfl)
    simp [dtm_signC, hc1, hc2]

theorem head?_append_cons_ne (a : List Char) (y : Char) (R : List Char)
    (hmem : ∀ x ∈ a, x.isDigit = true) (w : Char) (hw : w.isDigit = false) (hyw : y ≠ w) :
    (a ++ y :: R).head? ≠ some w := by
  cases a with
  | nil => simp [hyw]
  | cons x xs =>
    simp only [List.cons_append, List.head?_cons]
    intro he
    have hx : x = w := by simpa using he
    have hd := hmem x (by simp)
    rw [hx, hw] at hd
    exact absurd hd (by decide)

theorem getLast?_digits_ne (y : Char) (c : List Char) (hmem : ∀ x ∈ c, x.isDigit = true)
    (w : Char) (hw : w.isDigit = false) (hyw : y ≠ w) :
    (y :: c).getLast? ≠ some w := by
  induction c generalizing y with
  | nil => simp [hyw]
  | cons z zs ih =>
    rw [List.getLast?_cons_cons]
    refine ih z (fun x hx => hmem x (by simp [hx])) ?_
    intro he
    have hd := hmem z (by simp)
    rw [he, hw] at hd
    exact absurd hd (by decide)

theorem getLast?_append_cons_ne (X : List Char) (y : Char) (c : List Char)
    (hmem : ∀ x ∈ c, x.isDigit = true) (w : Char) (hw : w.isDigit = false) (hyw : y ≠ w) :
    (X ++ y :: c).getLast? ≠ some w := by
  rw [List.getLast?_append]
  cases hg : (y :: c).getLast? with
  | none => simp at hg
  | some z =>
    have := getLast?_digits_ne y c hmem w hw hyw
    rw [hg] at this
    simpa using this

theorem dtm_parts_of_sep_dot (l : List Char) (pos : Nat)
    (hsep : dtm_decSep l = some '.') (hpos : findLastPos l '.' = some pos) :
    dtm_parts l = ((l.take pos).filter (fun c => c ≠ ','),
      (l.drop (pos + 1)).filter (fun c => c ≠ ',')) := by
  unfold dtm_parts
  rw [hsep]
  show ((match findLastPos l '.' with
      | some pos => (l.take pos, l.drop (pos + 1))
      | none => (l, ([] : List Char))).1.filter (fun c => c ≠ ','),
    (match findLastPos l '.' with
      | some pos => (l.take pos, l.drop (pos + 1))
      | none => (l, ([] : List Char))).2.filter (fun c => c ≠ ',')) = _
  rw [hpos]

theorem dtm_parts_dot (X Y : List Char) (hX : onlyDigits X = true) (hY : onlyDigits Y = true) :
    dtm_parts (X ++ '.' :: Y) = (X, Y) := by
  have hXd := mem_digits X hX
  have hYd := mem_digits Y hY
  have hdotY : findLastPos ('.' :: Y) '.' = some 0 := by
    simp [findLastPos,
      findLastPos_eq_none Y '.' (fun x hx => (char_digit_facts x (hYd x hx)).1)]
  have hdot : findLastPos (X ++ '.' :: Y) '.' = some X.length := by
    have := findLastPos_append_some X ('.' :: Y) '.' 0 hdotY
    simpa using this
  have hcom : findLastPos (X ++ '.' :: Y) ',' = none := by
    rw [findLastPos_append_none]
    · exact findLastPos_eq_none X ',' (fun x hx => (char_digit_facts x (hXd x hx)).2.1)
    · refine findLastPos_eq_none _ ',' ?_
      intro x hx
      rcases List.mem_cons.mp hx with h | h
      · subst h; decide
      · exact (char_digit_facts x (hYd x h)).2.1
  have hsep : dtm_decSep (X ++ '.' :: Y) = some '.' := by
    unfold dtm_decSep
    rw [hdot, hcom]
  rw [dtm_parts_of_sep_dot _ _ hsep hdot, List.take_left, List.drop_append (i := 1)]
  simp only [List.drop_succ_cons, List.drop_zero]
  rw [filter_ne_eq_self X ',' (fun x hx => (char_digit_facts x (hXd x hx)).2.1),
    filter_ne_eq_self Y ',' (fun x hx => (char_digit_facts x (hYd x hx)).2.1)]

theorem dtm_parts_grouped (a b c : List Char) (ha : onlyDigits a = true)
    (hb : onlyDigits b = true) (hc : onlyDigits c = true) :
    dtm_parts (a ++ ',' :: (b ++ '.' :: c)) = (a ++ b, c) := by
  have had := mem_digits a ha
  have hbd := mem_digits b hb
  have hcd := mem_digits c hc
  have hL : a ++ ',' :: (b ++ '.' :: c) = (a ++ ',' :: b) ++ '.' :: c := by
    simp
  have hdotY : findLastPos ('.' :: c) '.' = some 0 := by
    simp [findLastPos,
      findLastPos_eq_none c '.' (fun x hx => (char_digit_facts x (hcd x hx)).1)]
  have hdot : findLastPos ((a ++ ',' :: b) ++ '.' :: c) '.' = some (a ++ ',' :: b).length :=
    by
    have := findLastPos_append_some (a ++ ',' :: b) ('.' :: c) '.' 0 hdotY
    simpa using this
  have hcomX : findLastPos (a ++ ',' :: b) ',' = some a.length := by
    have hin : findLastPos (',' :: b) ',' = some 0 := by
      simp [findLastPos,
        findLastPos_eq_none b ',' (fun x hx => (char_digit_facts x (hbd x hx)).2.1)]
    have := findLastPos_append_some a (',' :: b) ',' 0 hin
    simpa using this
  have hcom : findLastPos ((a ++ ',' :: b) ++ '.' :: c) ',' = some a.length := by
    rw [findLastPos_append_none, hcomX]
    refine findLastPos_eq_none _ ',' ?_
    intro x hx
    rcases List.mem_cons.mp hx with h | h
    · subst h; decide
    · exact (char_digit_facts x (hcd x h)).2.1
  have hsep : dtm_decSep ((a ++ ',' :: b) ++ '.' :: c) = some '.' := by
    unfold dtm_decSep
    rw [hdot, hcom]
    show (if (a ++ ',' :: b).length > a.length then some '.' else some ',') = some '.'
    rw [if_pos (by simp)]
  rw [hL, dtm_parts_of_sep_dot _ _ hsep hdot, List.take_left, List.drop_append (i := 1)]
  simp only [List.drop_succ_cons, List.drop_zero]
  congr 1
  · rw [List.filter_append, List.filter_cons, if_neg (by decide)]
    rw [filter_ne_eq_self a ',' (fun x hx => (char_digit_facts x (had x hx)).2.1),
      filter_ne_eq_self b ',' (fun x hx => (char_digit_facts x (hbd x hx)).2.1)]
  · exact filter_ne_eq_self c ',' (fun x hx => (char_digit_facts x (hcd x hx)).2.1)

theorem mem_mixed_not_stripped (L : List Char)
    (h : ∀ x ∈ L, x.isDigit = true ∨ x = '.' ∨ x = ',') :
    ∀ x ∈ L, isStrippedChar x = false := by
  intro x hx
  rcases h x hx with hd | he | he
  · exact (char_digit_facts x hd).2.2.2.2.2.2
  · subst he; decide
  · subst he; decide

theorem onlyDigits_append (x y : List Char) (hx : onlyDigits x = true)
    (hy : onlyDigits y = true) : onlyDigits (x ++ y) = true := by
  unfold onlyDigits at *
  rw [List.all_append, hx, hy]
  rfl

/-- When the cleaned input neither is parenthesised nor carries a leading
sign, `dec_to_minor` is `dtm_number false` of the separator split. -/
theorem dec_to_minor_mk_struct (L : List Char) (e : Int)
    (hmem : ∀ x ∈ L, isStrippedChar x = false)
    (hh1 : L.head? ≠ some '(') (hh2 : L.head? ≠ some '+') (hh3 : L.head? ≠ some '-') :
    dec_to_minor (String.mk L) e =
      dtm_number false (dtm_parts L).1 (dtm_parts L).2 e := by
  rw [dec_to_minor_eq, dtm_clean_mk_eq_self L hmem, dtm_parens_skip L hh1,
    dtm_signC_skip false L hh2 hh3]

/-- Claim C1, grouping part: when the last `.` follows the last `,`, the
comma is stripped as a thousands separator. -/
theorem dec_to_minor_group_comma (a b c : List Char) (e : Int)
    (ha : onlyDigits a = true) (hb : onlyDigits b = true) (hc : onlyDigits c = true) :
    dec_to_minor (String.mk (a ++ ',' :: (b ++ '.' :: c))) e =
      dec_to_minor (String.mk ((a ++ b) ++ '.' :: c)) e := by
  have had := mem_digits a ha
  have hbd := mem_digits b hb
  have hcd := mem_digits c hc
  have habd : ∀ x ∈ a ++ b, x.isDigit = true := by
    intro x hx
    rcases List.mem_append.mp hx with h | h
    · exact had x h
    · exact hbd x h
  have hmix1 : ∀ x ∈ a ++ ',' :: (b ++ '.' :: c), x.isDigit = true ∨ x = '.' ∨ x = ',' := by
    intro x hx
    rcases List.mem_append.mp hx with h | h
    · exact Or.inl (had x h)
    · rcases List.mem_cons.mp h with h | h
      · exact Or.inr (Or.inr h)
      · rcases List.mem_append.mp h with h | h
        · exact Or.inl (hbd x h)
        · rcases List.mem_cons.mp h with h | h
          · exact Or.inr (Or.inl h)
          · exact Or.inl (hcd x h)
  have hmix2 : ∀ x ∈ (a ++ b) ++ '.' :: c, x.isDigit = true ∨ x = '.' ∨ x = ',' := by
    intro x hx
    rcases List.mem_append.mp hx with h | h
    · exact Or.inl (habd x h)
    · rcases List.mem_cons.mp h with h | h
      · exact Or.inr (Or.inl h)
      · exact Or.inl (hcd x h)
  rw [dec_to_minor_mk_struct _ _ (mem_mixed_not_stripped _ hmix1)
      (head?_append_cons_ne a ',' _ had '(' (by decide) (by decide))
      (head?_append_cons_ne a ',' _ had '+' (by decide) (by decide))
      (head?_append_cons_ne a ',' _ had '-' (by decide) (by decide)),
    dec_to_minor_mk_struct _ _ (mem_mixed_not_stripped _ hmix2)
      (head?_append_cons_ne (a ++ b) '.' _ habd '(' (by decide) (by decide))
      (head?_append_cons_ne (a ++ b) '.' _ habd '+' (by decide) (by decide))
      (head?_append_cons_ne (a ++ b) '.' _ habd '-' (by decide) (by decide)),
    dtm_parts_grouped a b c ha hb hc,
    dtm_parts_dot (a ++ b) c (onlyDigits_append a b ha hb) hc]

/-- Claim C1, mirror grouping part: when the last `,` follows the last `.`,
the dot is stripped as a thousands separator (derived via the swap lemma). -/
theorem dec_to_minor_group_dot (a b c : List Char) (e : Int)
    (ha : onlyDigits a = true) (hb : onlyDigits b = true) (hc : onlyDigits c = true) :
    dec_to_minor (String.mk (a ++ '.' :: (b ++ ',' :: c))) e =
      dec_to_minor (String.mk ((a ++ b) ++ ',' :: c)) e := by
  have hswap1 : swapSeps (String.mk (a ++ '.' :: (b ++ ',' :: c))) =
      String.mk (a ++ ',' :: (b ++ '.' :: c)) := by
    unfold swapSeps
    congr 1
    show (a ++ '.' :: (b ++ ',' :: c)).map swapSep = _
    rw [List.map_append, List.map_cons, List.map_append, List.map_cons,
      map_swapSep_of_onlyDigits a ha, map_swapSep_of_onlyDigits b hb,
      map_swapSep_of_onlyDigits c hc,
      show swapSep '.' = ',' from by decide, show swapSep ',' = '.' from by decide]
  have hswap2 : swapSeps (String.mk ((a ++ b) ++ ',' :: c)) =
      String.mk ((a ++ b) ++ '.' :: c) := by
    unfold swapSeps
    congr 1
    show ((a ++ b) ++ ',' :: c).map swapSep = _
    rw [List.map_append, List.map_cons, List.map_append,
      map_swapSep_of_onlyDigits a ha, map_swapSep_of_onlyDigits b hb,
      map_swapSep_of_onlyDigits c hc,
      show swapSep ',' = '.' from by decide]
  have h1 := dec_to_minor_swapSeps (String.mk (a ++ '.' :: (b ++ ',' :: c))) e
  rw [hswap1] at h1
  have h2 := dec_to_minor_swapSeps (String.mk ((a ++ b) ++ ',' :: c)) e
  rw [hswap2] at h2
  rw [← h1, dec_to_minor_group_comma a b c e ha hb hc, ← h2]

/-- Claim C1, parenthesis part: wrapping in parentheses is the same as a
leading minus (provided the cleaned payload does not itself start with an
explicit sign, which would be consumed by the same single sign step). -/
theorem dec_to_minor_paren (s : String) (e : Int)
    (h1 : (dtm_clean s).head? ≠ some '+') (h2 : (dtm_clean s).head? ≠ some '-') :
    dec_to_minor ("(" ++ s ++ ")") e = dec_to_minor ("-" ++ s) e := by
  have hcl : dtm_clean ("(" ++ s ++ ")") = '(' :: (dtm_clean s ++ [')']) := by
    unfold dtm_clean
    show List.filter _ ((['('] ++ s.toList) ++ [')']) = _
    rw [List.filter_append, List.filter_append]
    rfl
  have hcl2 : dtm_clean ("-" ++ s) = '-' :: dtm_clean s := by
    unfold dtm_clean
    show List.filter _ (['-'] ++ s.toList) = _
    rw [List.filter_append]
    rfl
  have hp1 : dtm_parens ('(' :: (dtm_clean s ++ [')'])) = (true, dtm_clean s) := by
    unfold dtm_parens
    rw [if_pos]
    · show (true, (dtm_clean s ++ [')']).dropLast) = _
      rw [List.dropLast_concat]
    · refine ⟨rfl, ?_⟩
      show (('(' :: dtm_clean s) ++ [')']).getLast? = some ')'
      rw [List.getLast?_concat]
  have hs1 : dtm_signC (true, dtm_clean s) = (true, dtm_clean s) :=
    dtm_signC_skip true _ h1 h2
  have hp2 : dtm_parens ('-' :: dtm_clean s) = (false, '-' :: dtm_clean s) :=
    dtm_parens_skip _ (by simp)
  have hs2 : dtm_signC (false, '-' :: dtm_clean s) = (true, dtm_clean s) := by
    simp [dtm_signC]
  rw [dec_to_minor_eq, dec_to_minor_eq, hcl, hcl2, hp1, hs1, hp2, hs2]

/-- Claim C1, double-negation part: parentheses combine with a leading minus
(the two negations cancel). -/
theorem dec_to_minor_paren_minus (s : String) (e : Int) (d : Char)
    (hd : (dtm_clean s).head? = some d) (hdig : d.isDigit = true) :
    dec_to_minor ("(-" ++ s ++ ")") e = dec_to_minor s e := by
  have hfacts := char_digit_facts d hdig
  have hcl : dtm_clean ("(-" ++ s ++ ")") = '(' :: '-' :: (dtm_clean s ++ [')']) := by
    unfold dtm_clean
    show List.filter _ ((['(', '-'] ++ s.toList) ++ [')']) = _
    rw [List.filter_append, List.filter_append]
    rfl
  have hp1 : dtm_parens ('(' :: '-' :: (dtm_clean s ++ [')'])) =
      (true, '-' :: dtm_clean s) := by
    unfold dtm_parens
    rw [if_pos]
    · show (true, (('-' :: dtm_clean s) ++ [')']).dropLast) = _
      rw [List.dropLast_concat]
    · refine ⟨rfl, ?_⟩
      show (('(' :: '-' :: dtm_clean s) ++ [')']).getLast? = some ')'
      rw [List.getLast?_concat]
  have hs1 : dtm_signC (true, '-' :: dtm_clean s) = (false, dtm_clean s) := by
    simp [dtm_signC]
  have hp2 : dtm_parens (dtm_clean s) = (false, dtm_clean s) := by
    refine dtm_parens_skip _ ?_
    rw [hd]
    intro he
    exact hfacts.2.2.1 (by simpa using he)
  have hs2 : dtm_signC (false, dtm_clean s) = (false, dtm_clean s) := by
    refine dtm_signC_skip false _ ?_ ?_ <;> rw [hd] <;> intro he
    · exact hfacts.2.2.2.2.1 (by simpa using he)
    · exact hfacts.2.2.2.2.2.1 (by simpa using he)
  rw [dec_to_minor_eq, dec_to_minor_eq, hcl, hp1, hs1, hp2, hs2]

/-- C1: `dec_to_minor` treats whichever of the last `.`/`,` occurs later as
the decimal point and strips the other as a grouping separator (stated as:
the two separator conventions are interchangeable, and an explicit grouping
separator before the decimal point is dropped), and parentheses denote
negation, combining with a leading minus; the three concrete examples of the
spec evaluate as stated. -/
theorem C1_separators_and_parens :
    (∀ (s : String) (e : Int), dec_to_minor (swapSeps s) e = dec_to_minor s e) ∧
    (∀ (a b c : List Char) (e : Int), onlyDigits a = true → onlyDigits b = true →
      onlyDigits c = true →
      dec_to_minor (String.mk (a ++ ',' :: (b ++ '.' :: c))) e =
        dec_to_minor (String.mk ((a ++ b) ++ '.' :: c)) e) ∧
    (∀ (a b c : List Char) (e : Int), onlyDigits a = true → onlyDigits b = true →
      onlyDigits c = true →
      dec_to_minor (String.mk (a ++ '.' :: (b ++ ',' :: c))) e =
        dec_to_minor (String.mk ((a ++ b) ++ ',' :: c)) e) ∧
    (∀ (s : String) (e : Int), (dtm_clean s).head? ≠ some '+' →
      (dtm_clean s).head? ≠ some '-' →
      dec_to_minor ("(" ++ s ++ ")") e = dec_to_minor ("-" ++ s) e) ∧
    (∀ (s : String) (e : Int) (d : Char), (dtm_clean s).head? = some d →
      d.isDigit = true →
      dec_to_minor ("(-" ++ s ++ ")") e = dec_to_minor s e) ∧
    parse_decimal "1.234,56" "EUR" = 123456 ∧
    parse_decimal "1,234.56" "EUR" = 123456 ∧
    parse_decimal "(50,00)" "EUR" = -5000 :=
  ⟨dec_to_minor_swapSeps,
    fun a b c e ha hb hc => dec_to_minor_group_comma a b c e ha hb hc,
    fun a b c e ha hb hc => dec_to_minor_group_dot a b c e ha hb hc,
    fun s e h1 h2 => dec_to_minor_paren s e h1 h2,
    fun s e d hd hdig => dec_to_minor_paren_minus s e d hd hdig,
    by decide, by decide, by decide⟩

/-- Witness for C1 at concrete inputs, discharging the hypotheses of every
conditional conjunct. -/
theorem C1_separators_and_parens_witness :
    dec_to_minor (String.mk (['1'] ++ ',' :: (['2', '3', '4'] ++ '.' :: ['5', '6']))) 2 =
        dec_to_minor (String.mk ((['1'] ++ ['2', '3', '4']) ++ '.' :: ['5', '6'])) 2 ∧
    dec_to_minor (String.mk (['1'] ++ '.' :: (['2', '3', '4'] ++ ',' :: ['5', '6']))) 2 =
        dec_to_minor (String.mk ((['1'] ++ ['2', '3', '4']) ++ ',' :: ['5', '6'])) 2 ∧
    dec_to_minor ("(" ++ "50,00" ++ ")") 2 = dec_to_minor ("-" ++ "50,00") 2 ∧
    dec_to_minor ("(-" ++ "50,00" ++ ")") 2 = dec_to_minor "50,00" 2 :=
  ⟨C1_separators_and_parens.2.1 ['1'] ['2', '3', '4'] ['5', '6'] 2
      (by decide) (by decide) (by decide),
    C1_separators_and_parens.2.2.1 ['1'] ['2', '3', '4'] ['5', '6'] 2
      (by decide) (by decide) (by decide),
    C1_separators_and_parens.2.2.2.1 "50,00" 2 (by decide) (by decide),
    C1_separators_and_parens.2.2.2.2.1 "50,00" 2 '5' (by decide) (by decide)⟩

/-! ### Claim C2: overflow behaviour of `dec_to_minor` -/

/-- C2: the claim that any overflowing intermediate scaling or addition makes
`dec_to_minor` return exactly 0 fails on the negative branch: the source's
guard `scaled_major < INT64_MIN + fp_s` can never fire (both `scaled_major`
and `fp_s` are non-negative), so for `-92233720368547758.99` with exponent 2
the signed addition `scaled_major + fp_s = 2^63 + 91` overflows (UB in C++;
wrap-around on common targets) and a wrapped value, not 0 and not the
mathematically correct result, is returned. -/
theorem C2_neg_overflow_wraps :
    parse_decimal "-92233720368547758.99" "EUR" = -9223372036854775717 ∧
    parse_decimal "-92233720368547758.99" "EUR" ≠ 0 ∧
    parse_decimal "-92233720368547758.99" "EUR" ≠ -9223372036854775899 ∧
    parse_decimal "92233720368547758.99" "EUR" = 0 := by
  refine ⟨by decide, by decide, by decide, by decide⟩

/-! ### Claim C3: `parse_iso_date` -/

/-- 2^31 - 1, `std::numeric_limits<int>::max()`. -/
def INT32_MAX : Int := 2147483647

/-- -2^31, `std::numeric_limits<int>::min()`. -/
def INT32_MIN : Int := -2147483648

/-- Decimal value of a digit list (most significant first). -/
def digitsValNat (l : List Char) : Nat :=
  l.foldl (fun a c => 10 * a + (c.toNat - 48)) 0

/-- `std::stoi` semantics on a string fragment: skip leading whitespace, an
optional sign, then a non-empty digit prefix; `none` models a thrown
`std::invalid_argument` (no digits) or `std::out_of_range` (value outside
`int`). -/
def stoi? (l : List Char) : Option Int :=
  let l1 := l.dropWhile (fun c =>
    c = ' ' || c = Char.ofNat 9 || c = Char.ofNat 10 || c = Char.ofNat 11 ||
    c = Char.ofNat 12 || c = Char.ofNat 13)
  let sp : Int × List Char :=
    match l1 with
    | c :: rest => if c = '-' then (-1, rest) else if c = '+' then (1, rest) else (1, l1)
    | [] => (1, l1)
  let ds := sp.2.takeWhile (fun c => c.isDigit)
  if ds = [] then none
  else
    let v : Int := sp.1 * (digitsValNat ds : Int)
    if v < INT32_MIN ∨ v > INT32_MAX then none else some v

/-- Embedding of the `parse_iso_date` lambda inside `parse_entry`
(camt_parser_pugi.hpp): short strings return 0; otherwise the three
dash-delimited components are converted with `std::stoi`; `none` models an
exception thrown by `std::stoi` and escaping `parse_entry`. -/
def parse_iso_date (s : String) : Option Int :=
  if s.length < 10 then some 0
  else
    match stoi? (s.toList.take 4), stoi? ((s.toList.drop 5).take 2),
        stoi? ((s.toList.drop 8).take 2) with
    | some y, some m, some d => some (y * 10000 + m * 100 + d)
    | _, _, _ => none

/-- C3: strings shorter than 10 characters yield integer 0 and a well-formed
date parses to its YYYYMMDD value, but the "never raises" part of the claim
fails: a malformed string of length ≥ 10 whose components contain no digits
makes `std::stoi` throw `std::invalid_argument` (modelled by `none`), and the
exception propagates out of `parse_entry`. -/
theorem C3_parse_iso_date :
    (∀ s : String, s.length < 10 → parse_iso_date s = some 0) ∧
    parse_iso_date "XXXX-XX-XX" = none ∧
    parse_iso_date "2025-10-08" = some 20251008 := by
  refine ⟨?_, by decide, by decide⟩
  intro s h
  unfold parse_iso_date
  rw [if_pos h]

/-- Witness for C3 at a concrete short string. -/
theorem C3_parse_iso_date_witness : parse_iso_date "short" = some 0 :=
  C3_parse_iso_date.1 "short" (by decide)

/-! ### Domain model (camt_model.hpp)

Only the fields read by the verified operations are carried; the omitted
members (references, remittance, codes, FX amounts, dates) are plain strings
or substructures that the charge aggregation and counterparty resolution
never touch. -/

structure CurrencyAmount where
  currency : String := ""
  minor : Int := 0
deriving DecidableEq

structure AccountId where
  iban : String := ""
  other : String := ""
deriving DecidableEq

structure Agent where
  bic : String := ""
  name : String := ""
deriving DecidableEq

structure Party where
  name : String := ""
  iban : String := ""
  bic : String := ""
deriving DecidableEq

structure RelatedParties where
  debtor : Party := {}
  debtorAccount : AccountId := {}
  ultimateDebtor : Party := {}
  creditor : Party := {}
  creditorAccount : AccountId := {}
  ultimateCreditor : Party := {}
deriving DecidableEq

structure RelatedAgents where
  debtorAgent : Agent := {}
  creditorAgent : Agent := {}
deriving DecidableEq

structure ChargesRecord where
  amount : CurrencyAmount := {}
  agent : Agent := {}
  hasCdtDbtInd : Bool := false
  isCredit : Bool := false
  included : Bool := false
deriving DecidableEq

structure Charges where
  total : CurrencyAmount := {}
  records : List ChargesRecord := []
deriving DecidableEq

structure EntryTransaction where
  parties : RelatedParties := {}
  agents : RelatedAgents := {}
  charges : Charges := {}
  txAmount : Option CurrencyAmount := none
  hasCdtDbtInd : Bool := false
  isCredit : Bool := false
  importOrdinal : Int := -1
deriving DecidableEq

structure Entry where
  amount : CurrencyAmount := {}
  isCredit : Bool := false
  reversal : Bool := false
  transactions : List EntryTransaction := []
  importOrdinal : Int := -1
deriving DecidableEq

/-! ### Claim C4: `sum_charges_view` -/

/-- Embedding of the `sum_charges_view` lambda of `export_entries_csv`
(camt_csv.hpp): sum every charge record's signed minor amount, skipping
records without a currency, and collect the "any included" flag. -/
def sum_charges_view (e : Entry) (tx : Option EntryTransaction) : CurrencyAmount × Bool :=
  match tx with
  | none => ({}, false)
  | some t =>
    t.charges.records.foldl
      (fun acc r =>
        if r.amount.currency = "" then acc
        else
          let cur := if acc.1.currency = "" then r.amount.currency else acc.1.currency
          let absM := |r.amount.minor|
          let creditBase :=
            if r.hasCdtDbtInd then r.isCredit
            else if t.hasCdtDbtInd then t.isCredit
            else e.isCredit
          let effectiveCredit := if e.reversal then !creditBase else creditBase
          let signedM := if effectiveCredit then absM else -absM
          ({ currency := cur, minor := acc.1.minor + signedM }, acc.2 || r.included))
      ({}, false)

/-- Spec-side: resolved direction of one charge record, by the priority
record flag > transaction flag > entry flag. -/
def chargeDirection (e : Entry) (t : EntryTransaction) (r : ChargesRecord) : Bool :=
  if r.hasCdtDbtInd then r.isCredit
  else if t.hasCdtDbtInd then t.isCredit
  else e.isCredit

/-- Spec-side: signed minor amount of one charge record — its absolute minor
amount, positive exactly when the resolved direction flipped once by the
entry's reversal flag is credit. -/
def chargeSignedMinor (e : Entry) (t : EntryTransaction) (r : ChargesRecord) : Int :=
  if chargeDirection e t r ≠ e.reversal then |r.amount.minor| else -|r.amount.minor|

/-- Spec-side: currency of the aggregate — that of the first currency-bearing
record. -/
def chargesCurrency (rs : List ChargesRecord) : String :=
  ((rs.filter (fun r => r.amount.currency ≠ "")).head?.map
    (fun r => r.amount.currency)).getD ""

theorem chargesCurrency_cons (r : ChargesRecord) (rest : List ChargesRecord) :
    chargesCurrency (r :: rest) =
      if r.amount.currency = "" then chargesCurrency rest else r.amount.currency := by
  unfold chargesCurrency
  rw [List.filter_cons]
  by_cases h : r.amount.currency = ""
  · rw [if_neg (by simp [h]), if_pos h]
  · rw [if_pos (by simp [h]), if_neg h]
    simp

theorem sum_charges_view_aux (e : Entry) (t : EntryTransaction)
    (rs : List ChargesRecord) (acc : CurrencyAmount × Bool) :
    (rs.foldl
      (fun acc r =>
        if r.amount.currency = "" then acc
        else
          let cur := if acc.1.currency = "" then r.amount.currency else acc.1.currency
          let absM := |r.amount.minor|
          let creditBase :=
            if r.hasCdtDbtInd then r.isCredit
            else if t.hasCdtDbtInd then t.isCredit
            else e.isCredit
          let effectiveCredit := if e.reversal then !creditBase else creditBase
          let signedM := if effectiveCredit then absM else -absM
          ({ currency := cur, minor := acc.1.minor + signedM }, acc.2 || r.included))
      acc) =
    ({ currency := if acc.1.currency = "" then chargesCurrency rs else acc.1.currency,
       minor := acc.1.minor +
         ((rs.filter (fun r => r.amount.currency ≠ "")).map (chargeSignedMinor e t)).sum },
     acc.2 || rs.any (fun r => r.amount.currency ≠ "" && r.included)) := by
  induction rs generalizing acc with
  | nil =>
    obtain ⟨⟨c0, m0⟩, b0⟩ := acc
    simp only [List.foldl_nil, List.filter_nil, List.map_nil, List.sum_nil,
      List.any_nil, chargesCurrency]
    by_cases hacc : c0 = "" <;> simp [hacc]
  | cons r rest ih =>
    by_cases hcur : r.amount.currency = ""
    · rw [List.foldl_cons]
      rw [if_pos hcur]
      rw [ih acc]
      have hfilt : (r :: rest).filter (fun r => r.amount.currency ≠ "") =
          rest.filter (fun r => r.amount.currency ≠ "") := by
        rw [List.filter_cons, if_neg (by simp [hcur])]
      have hany : (r :: rest).any (fun r => r.amount.currency ≠ "" && r.included) =
          rest.any (fun r => r.amount.currency ≠ "" && r.included) := by
        rw [List.any_cons]
        simp [hcur]
      rw [chargesCurrency, chargesCurrency, hfilt, hany]
    · obtain ⟨⟨c0, m0⟩, b0⟩ := acc
      rw [List.foldl_cons, if_neg hcur, ih]
      rw [chargesCurrency_cons]
      have hfilt : (r :: rest).filter (fun r => r.amount.currency ≠ "") =
          r :: rest.filter (fun r => r.amount.currency ≠ "") := by
        rw [List.filter_cons, if_pos (by simp [hcur])]
      have hany : (r :: rest).any (fun r => r.amount.currency ≠ "" && r.included) =
          (r.included || rest.any (fun r => r.amount.currency ≠ "" && r.included)) := by
        rw [List.any_cons]
        simp [hcur]
      rw [hfilt, List.map_cons, List.sum_cons, hany]
      cases hrev : e.reversal <;>
        cases hdir : (if r.hasCdtDbtInd = true then r.isCredit
          else if t.hasCdtDbtInd = true then t.isCredit else e.isCredit) <;>
        by_cases hacc : c0 = "" <;>
          simp [hacc, hcur, hrev, hdir, chargeSignedMinor, chargeDirection,
            add_assoc, Bool.or_assoc]

/-- C4: the charges aggregation resolves each record's direction with
priority record flag > transaction flag > entry flag, flips it exactly once
under the entry's reversal flag, sums the signed minor amounts of the
currency-bearing records (empty-currency records contribute nothing, also
not to the included flag), takes the currency of the first currency-bearing
record, and sets the any-included flag iff some summed record is flagged
included; a missing transaction yields the zero aggregate. -/
theorem C4_sum_charges_view :
    ∀ (e : Entry) (t : EntryTransaction),
      (sum_charges_view e (some t)).1.minor =
        ((t.charges.records.filter (fun r => r.amount.currency ≠ "")).map
          (chargeSignedMinor e t)).sum ∧
      (sum_charges_view e (some t)).2 =
        t.charges.records.any (fun r => r.amount.currency ≠ "" && r.included) ∧
      (sum_charges_view e (some t)).1.currency = chargesCurrency t.charges.records ∧
      sum_charges_view e none = ({}, false) := by
  intro e t
  have hsum : sum_charges_view e (some t) =
      ({ currency := if ("" : String) = "" then chargesCurrency t.charges.records else "",
         minor := 0 + ((t.charges.records.filter (fun r => r.amount.currency ≠ "")).map
           (chargeSignedMinor e t)).sum },
       (false || t.charges.records.any (fun r => r.amount.currency ≠ "" && r.included))) :=
    sum_charges_view_aux e t t.charges.records ({}, false)
  rw [hsum]
  exact ⟨by simp, by simp, by simp, rfl⟩

/-! ### Claim C5: counterparty resolution in `write_row` -/

structure ExportOptions where
  delimiter : Char := ';'
  include_header : Bool := true
  write_utf8_bom : Bool := false
  signed_amount : Bool := true
  credit_as_bool : Bool := true
  remittance_separator : String := ""
  use_effective_credit : Bool := false
  prefer_ultimate_counterparty : Bool := true
deriving DecidableEq

/-- The `isProvided` helper of `export_entries_csv`. -/
def isProvided (s : String) : Bool := !(s == "") && !(s == "NOTPROVIDED")

/-- Step 1 of `write_row`: raw credit/debit direction — the transaction's
indicator when present, else the entry's. -/
def rowCredit (e : Entry) (tx : Option EntryTransaction) : Bool :=
  match tx with
  | some t => if t.hasCdtDbtInd then t.isCredit else e.isCredit
  | none => e.isCredit

/-- Effective (post-reversal) direction of a row. -/
def rowEffectiveCredit (e : Entry) (tx : Option EntryTransaction) : Bool :=
  if e.reversal then !(rowCredit e tx) else rowCredit e tx

/-- Embedding of step 2 of `write_row` (camt_csv.hpp): counterparty name,
IBAN and BIC. -/
def counterparty_resolve (opt : ExportOptions) (e : Entry) (tx : EntryTransaction) :
    String × String × String :=
  if rowEffectiveCredit e (some tx) then
    let cpName :=
      if opt.prefer_ultimate_counterparty then
        if isProvided tx.parties.ultimateDebtor.name then tx.parties.ultimateDebtor.name
        else tx.parties.debtor.name
      else
        if isProvided tx.parties.debtor.name then tx.parties.debtor.name
        else tx.parties.ultimateDebtor.name
    let cpIban :=
      if tx.parties.debtorAccount.iban ≠ "" then tx.parties.debtorAccount.iban else ""
    (cpName, cpIban, tx.agents.debtorAgent.bic)
  else
    let cpName :=
      if opt.prefer_ultimate_counterparty then
        if isProvided tx.parties.ultimateCreditor.name then tx.parties.ultimateCreditor.name
        else tx.parties.creditor.name
      else
        if isProvided tx.parties.creditor.name then tx.parties.creditor.name
        else tx.parties.ultimateCreditor.name
    let cpIban :=
      if tx.parties.creditorAccount.iban ≠ "" then tx.parties.creditorAccount.iban else ""
    (cpName, cpIban, tx.agents.creditorAgent.bic)

/-- Spec-side: preferred name with fallback when the preferred one is blank
or the literal NOTPROVIDED. -/
def preferName (preferred fallback : String) : String :=
  if preferred ≠ "" ∧ preferred ≠ "NOTPROVIDED" then preferred else fallback

/-- Spec-side counterparty resolution, written from the claim: the side is
chosen by the effective (post-reversal) direction — effective credit selects
the debtor side, effective debit the creditor side — and within the chosen
side the prefer-ultimate option decides which name is preferred. -/
def counterparty_spec (opt : ExportOptions) (e : Entry) (tx : EntryTransaction) :
    String × String × String :=
  if rowEffectiveCredit e (some tx) then
    (if opt.prefer_ultimate_counterparty then
        preferName tx.parties.ultimateDebtor.name tx.parties.debtor.name
      else preferName tx.parties.debtor.name tx.parties.ultimateDebtor.name,
      tx.parties.debtorAccount.iban, tx.agents.debtorAgent.bic)
  else
    (if opt.prefer_ultimate_counterparty then
        preferName tx.parties.ultimateCreditor.name tx.parties.creditor.name
      else preferName tx.parties.creditor.name tx.parties.ultimateCreditor.name,
      tx.parties.creditorAccount.iban, tx.agents.creditorAgent.bic)

theorem isProvided_iff (s : String) :
    isProvided s = true ↔ (s ≠ "" ∧ s ≠ "NOTPROVIDED") := by
  unfold isProvided
  constructor
  · intro h
    simp only [Bool.and_eq_true, Bool.not_eq_true'] at h
    exact ⟨by simpa using h.1, by simpa using h.2⟩
  · intro h
    simp only [Bool.and_eq_true, Bool.not_eq_true']
    exact ⟨by simpa using h.1, by simpa using h.2⟩

theorem preferName_eq (p f : String) :
    (if isProvided p then p else f) = preferName p f := by
  unfold preferName
  by_cases h : isProvided p = true
  · rw [if_pos h, if_pos ((isProvided_iff p).mp h)]
  · rw [if_neg h, if_neg]
    intro hc
    exact h ((isProvided_iff p).mpr hc)

theorem if_ne_empty (s : String) : (if s ≠ "" then s else "") = s := by
  by_cases h : s = ""
  · rw [if_neg (by simpa using h), h]
  · rw [if_pos h]

/-- C5: counterparty resolution equals the spec-side description, and in
particular a reversal entry whose resolved raw direction is CRDT takes its
counterparty from the creditor side. -/
theorem C5_counterparty :
    (∀ (opt : ExportOptions) (e : Entry) (tx : EntryTransaction),
      counterparty_resolve opt e tx = counterparty_spec opt e tx) ∧
    (∀ (opt : ExportOptions) (e : Entry) (tx : EntryTransaction),
      e.reversal = true → rowCredit e (some tx) = true →
      counterparty_resolve opt e tx =
        (if opt.prefer_ultimate_counterparty then
            preferName tx.parties.ultimateCreditor.name tx.parties.creditor.name
          else preferName tx.parties.creditor.name tx.parties.ultimateCreditor.name,
          tx.parties.creditorAccount.iban, tx.agents.creditorAgent.bic)) := by
  have hmain : ∀ (opt : ExportOptions) (e : Entry) (tx : EntryTransaction),
      counterparty_resolve opt e tx = counterparty_spec opt e tx := by
    intro opt e tx
    unfold counterparty_resolve counterparty_spec
    by_cases heff : rowEffectiveCredit e (some tx) = true <;>
      [rw [if_pos heff, if_pos heff]; rw [if_neg heff, if_neg heff]] <;>
      rw [preferName_eq, preferName_eq, if_ne_empty]
  refine ⟨hmain, ?_⟩
  intro opt e tx hrev hcred
  rw [hmain]
  unfold counterparty_spec
  rw [if_neg]
  unfold rowEffectiveCredit
  rw [hrev, hcred]
  simp

/-- Concrete reversal-CRDT entry used by the C5 witness. -/
def revCrdtEntry : Entry :=
  { isCredit := true, reversal := true }

/-- Concrete transaction with creditor-side parties used by the C5 witness. -/
def creditorSideTx : EntryTransaction :=
  { parties :=
      { creditor := { name := "ACME" },
        creditorAccount := { iban := "DE99" },
        ultimateCreditor := { name := "NOTPROVIDED" } },
    agents := { creditorAgent := { bic := "MARKDEF1" } } }

/-- Witness for C5 at a concrete reversal-CRDT transaction. -/
theorem C5_counterparty_witness :
    counterparty_resolve ({} : ExportOptions) revCrdtEntry creditorSideTx =
      ("ACME", "DE99", "MARKDEF1") := by
  rw [C5_counterparty.2 ({} : ExportOptions) revCrdtEntry creditorSideTx rfl (by decide)]
  decide

/-! ### Claim C6: running-balance recomputation in `sortExportData`

`sortExportData` first stable-sorts the rows and then recomputes the running
balance in one pass over the rows following the optional header; the pass is
embedded here.  The `std::unordered_map<std::string, Bal>` of per-account
accumulators is modelled as a total function whose initial value is the
map's default-constructed `Bal`. -/

/-- One export row: the ordered (display, canonical) pairs of
`using CAMTRow = std::vector<std::pair<std::string,std::string>>`. -/
abbrev CAMTRow := List (String × String)

/-! The `ExportField` enumeration of camt_csv.hpp as its numeric indices. -/

namespace ExportField

def BookingDate : Nat := 0
def ValueDate : Nat := 1
def Amount : Nat := 2
def CreditDebit : Nat := 3
def Currency : Nat := 4
def CounterpartyName : Nat := 5
def CounterpartyIBAN : Nat := 6
def CounterpartyBIC : Nat := 7
def RemittanceLine : Nat := 8
def RemittanceStructured : Nat := 9
def EndToEndId : Nat := 10
def MandateId : Nat := 11
def TxId : Nat := 12
def BankRef : Nat := 13
def AccountIBAN : Nat := 14
def AccountBIC : Nat := 15
def BkTxCd : Nat := 16
def BookingCode : Nat := 17
def Status : Nat := 18
def Reversal : Nat := 19
def RunningBalance : Nat := 20
def ServicerBankName : Nat := 21
def OpeningBalance : Nat := 22
def ClosingBalance : Nat := 23
def Primanota : Nat := 24
def DTACode : Nat := 25
def GVCCode : Nat := 26
def SWIFTTransactionCode : Nat := 27
def ChargesAmount : Nat := 28
def ChargesCurrency : Nat := 29
def ChargesIncluded : Nat := 30
def EntryOrdinal : Nat := 31
def TransactionOrdinal : Nat := 32
def Count : Nat := 33

end ExportField

/-- `row[i]` (out-of-range access, UB in C++, is modelled by the empty
pair — the export always produces rows of the full width). -/
def getField (row : CAMTRow) (i : Nat) : String × String := row.getD i ("", "")

/-- `std::from_chars` into `int64_t`: optional minus then the maximal digit
prefix; value stays 0 when there is no digit (`invalid_argument`) or the
digit sequence overflows (`result_out_of_range`). -/
def from_chars_i64 (l : List Char) : Int :=
  let sp : Bool × List Char :=
    match l with
    | c :: rest => if c = '-' then (true, rest) else (false, l)
    | [] => (false, l)
  let ds := sp.2.takeWhile (fun c => c.isDigit)
  if ds = [] then 0
  else
    let v : Int := (if sp.1 then -1 else 1) * (digitsValNat ds : Int)
    if v < INT64_MIN ∨ v > INT64_MAX then 0 else v

/-- The `frac` lambda of `sortExportData`: number of characters after the
first `.` (0 when there is none). -/
def fracCount (s : String) : Nat :=
  match findFirstPos s.toList '.' with
  | none => 0
  | some p => s.toList.length - p - 1

/-- The `parse_scaled` lambda of `sortExportData`. -/
def parse_scaled (s : String) (scale : Nat) : Int :=
  let l := s.toList
  let sp : List Char × List Char :=
    match findFirstPos l '.' with
    | none => (l, ([] : List Char))
    | some p => (l.take p, l.drop (p + 1))
  let fp :=
    if sp.2.length < scale then sp.2 ++ List.replicate (scale - sp.2.length) '0'
    else if sp.2.length > scale then sp.2.take scale
    else sp.2
  let ip := if sp.1 = [] then ['0'] else sp.1
  let all := ip ++ (if scale ≠ 0 then fp else [])
  from_chars_i64 all

/-- The `fmt_scaled` lambda of `sortExportData`. -/
def fmt_scaled (v : Int) (scale : Nat) : String :=
  let neg := v < 0
  let u : Nat := v.natAbs
  let s0 := (Nat.repr u).toList
  if scale = 0 then
    String.mk (if neg then '-' :: s0 else s0)
  else
    let s1 :=
      if s0.length ≤ scale then List.replicate (scale + 1 - s0.length) '0' ++ s0 else s0
    let dot := s1.length - scale
    let s2 := s1.take dot ++ '.' :: s1.drop dot
    let s3 := (s2.reverse.dropWhile (fun c => c = '0')).reverse
    let s4 := if s3.getLast? = some '.' then s3.dropLast else s3
    let s5 := if s4 = [] then ['0'] else s4
    String.mk (if neg then '-' :: s5 else s5)

/-- The `Bal` accumulator struct of `sortExportData`. -/
structure Bal where
  v : Int := 0
  scale : Nat := 0
deriving DecidableEq

/-- Canonical account identifier of a row. -/
def rowIban (r : CAMTRow) : String := (getField r ExportField.AccountIBAN).2

/-- Canonical (absolute) amount text of a row. -/
def rowAmountCanon (r : CAMTRow) : String := (getField r ExportField.Amount).2

/-- Canonical credit flag of a row (`second == "1"`). -/
def rowCreditCanon (r : CAMTRow) : Bool := (getField r ExportField.CreditDebit).2 == "1"

/-- Canonical reversal flag of a row (`second == "1"`). -/
def rowReversalCanon (r : CAMTRow) : Bool := (getField r ExportField.Reversal).2 == "1"

/-- The assignment
`row[RunningBalance].first = row[RunningBalance].second = fmt_scaled(...)`. -/
def setRunningBalance (r : CAMTRow) (s : String) : CAMTRow :=
  r.set ExportField.RunningBalance (s, s)

/-- One iteration of the running-balance loop on one account accumulator:
grow the scale to the row's fractional width (rescaling the accumulated
value by tens), then add the signed delta. -/
def balStep (b : Bal) (amtStr : String) (credit reversal : Bool) : Bal :=
  let sScale := fracCount amtStr
  let b1 : Bal :=
    if sScale > b.scale then { v := b.v * (10 : Int) ^ (sScale - b.scale), scale := sScale }
    else b
  let sign : Int := if credit then 1 else -1
  let sign2 := if reversal then -sign else sign
  let delta := parse_scaled amtStr b1.scale
  { v := b1.v + sign2 * delta, scale := b1.scale }

/-- The running-balance pass of `sortExportData` (the loop after
`std::stable_sort`), carrying the map of per-account accumulators. -/
def runningBalancePass_go (m : String → Bal) : List CAMTRow → List CAMTRow
  | [] => []
  | r :: rs =>
    let iban := rowIban r
    let b := balStep (m iban) (rowAmountCanon r) (rowCreditCanon r) (rowReversalCanon r)
    setRunningBalance r (fmt_scaled b.v b.scale) ::
      runningBalancePass_go (fun k => if k = iban then b else m k) rs

/-- The running-balance pass started on the empty accumulator map. -/
def runningBalancePass (rows : List CAMTRow) : List CAMTRow :=
  runningBalancePass_go (fun _ => {}) rows

/-- Spec-side per-account accumulator: fold `balStep` over exactly the rows
of account `a`, independently of all other rows. -/
def balFor (rows : List CAMTRow) (a : String) : Bal :=
  (rows.filter (fun r => rowIban r = a)).foldl
    (fun b r => balStep b (rowAmountCanon r) (rowCreditCanon r) (rowReversalCanon r)) {}

/-- Spec-side recomputation: each row receives the formatted accumulator of
its own account taken over the prefix of rows up to and including itself. -/
def runningBalanceSpec_go (hist : List CAMTRow) : List CAMTRow → List CAMTRow
  | [] => []
  | r :: rs =>
    setRunningBalance r
      (fmt_scaled (balFor (hist ++ [r]) (rowIban r)).v
        (balFor (hist ++ [r]) (rowIban r)).scale) ::
      runningBalanceSpec_go (hist ++ [r]) rs

theorem balFor_append (hist : List CAMTRow) (r : CAMTRow) (a : String) :
    balFor (hist ++ [r]) a =
      if rowIban r = a then
        balStep (balFor hist a) (rowAmountCanon r) (rowCreditCanon r) (rowReversalCanon r)
      else balFor hist a := by
  unfold balFor
  rw [List.filter_append, List.foldl_append]
  by_cases h : rowIban r = a
  · rw [if_pos h]
    have hf : List.filter (fun r => rowIban r = a) [r] = [r] := by simp [h]
    rw [hf]
    rfl
  · rw [if_neg h]
    have hf : List.filter (fun r => rowIban r = a) [r] = [] := by simp [h]
    rw [hf]
    rfl

theorem runningBalancePass_go_eq (rows : List CAMTRow) (hist : List CAMTRow)
    (m : String → Bal) (hm : ∀ a, m a = balFor hist a) :
    runningBalancePass_go m rows = runningBalanceSpec_go hist rows := by
  induction rows generalizing hist m with
  | nil => rfl
  | cons r rs ih =>
    simp only [runningBalancePass_go, runningBalanceSpec_go]
    have hb : balStep (m (rowIban r)) (rowAmountCanon r) (rowCreditCanon r)
        (rowReversalCanon r) = balFor (hist ++ [r]) (rowIban r) := by
      rw [hm, balFor_append, if_pos rfl]
    rw [hb]
    congr 1
    apply ih
    intro a
    show (if a = rowIban r then balFor (hist ++ [r]) (rowIban r) else m a) =
      balFor (hist ++ [r]) a
    by_cases ha : a = rowIban r
    · rw [if_pos ha, ha]
    · rw [if_neg ha, balFor_append, if_neg (fun hc => ha hc.symm), hm]

/-- C6: the running-balance recomputation accumulates independently per
account identifier (each row's value is the fold over exactly its own
account's rows in the prefix up to itself); the accumulator scale only ever
grows, becoming the maximum of the old scale and the row's fractional width,
with the prior value rescaled by a power of ten; the delta is the row's
absolute amount signed positively exactly when the canonical credit flag
XOR the canonical reversal flag holds; and the formatted result overwrites
both the display and the canonical running-balance fields. -/
theorem C6_running_balance :
    (∀ rows : List CAMTRow, runningBalancePass rows = runningBalanceSpec_go [] rows) ∧
    (∀ (b : Bal) (s : String) (c rv : Bool),
      (balStep b s c rv).scale = max b.scale (fracCount s) ∧
      (balStep b s c rv).v =
        b.v * (10 : Int) ^ (max b.scale (fracCount s) - b.scale) +
          (if c ≠ rv then 1 else -1) * parse_scaled s (max b.scale (fracCount s))) ∧
    (∀ (r : CAMTRow) (s : String), ExportField.RunningBalance < r.length →
      getField (setRunningBalance r s) ExportField.RunningBalance = (s, s)) := by
  refine ⟨?_, ?_, ?_⟩
  · intro rows
    exact runningBalancePass_go_eq rows [] (fun _ => {}) (fun a => rfl)
  · intro b s c rv
    simp only [balStep]
    have hsign : (if rv then -(if c then (1 : Int) else -1) else if c then 1 else -1) =
        if c ≠ rv then 1 else -1 := by
      cases c <;> cases rv <;> simp
    by_cases h : fracCount s > b.scale
    · have hmax : max b.scale (fracCount s) = fracCount s :=
        Nat.max_eq_right (Nat.le_of_lt h)
      rw [if_pos h]
      refine ⟨by rw [hmax], ?_⟩
      rw [hmax, hsign]
    · have hmax : max b.scale (fracCount s) = b.scale :=
        Nat.max_eq_left (Nat.not_lt.mp h)
      rw [if_neg h]
      refine ⟨by rw [hmax], ?_⟩
      rw [hmax, hsign, Nat.sub_self, pow_zero, mul_one]
  · intro r s h
    unfold getField setRunningBalance
    rw [List.getD_eq_getElem?_getD, List.getElem?_set_self (by simpa using h)]
    rfl

/-- Witness for C6 at a concrete row of full width. -/
theorem C6_running_balance_witness :
    getField (setRunningBalance (List.replicate 33 ("", "")) "7.00")
      ExportField.RunningBalance = ("7.00", "7.00") :=
  C6_running_balance.2.2 (List.replicate 33 ("", "")) "7.00" (by decide)

/-! ### Claim C7: `accumulate_hash_row` -/

/-- The default hash field set `kHashCoreFields` of `accumulate_hash_row`. -/
def kHashCoreFields : List Nat :=
  [ExportField.BookingDate, ExportField.Amount, ExportField.CreditDebit,
    ExportField.Currency, ExportField.CounterpartyIBAN, ExportField.CounterpartyBIC,
    ExportField.RemittanceLine, ExportField.EndToEndId, ExportField.TxId,
    ExportField.BankRef, ExportField.AccountIBAN, ExportField.BkTxCd,
    ExportField.Reversal, ExportField.Primanota, ExportField.DTACode]

/-- The 0x1F (ASCII Unit Separator) field terminator. -/
def unitSep : String := String.mk [Char.ofNat 0x1F]

/-- The accumulate mode (`accumulate != nullptr`) of
`normalize_or_accumulate_row` (camt_csv.hpp): for each field index below
`min(row.size, Count)` in ascending order, append
`to_string(index) ++ "=" ++ canonical ++ 0x1F` when the field is selected. -/
def normalize_or_accumulate_row_acc (row : CAMTRow) (fields : List Nat)
    (includeMode : Bool) : String :=
  (List.range (min row.length ExportField.Count)).foldl
    (fun acc i =>
      if (if fields.length = 0 then true
          else if includeMode then fields.contains i else !(fields.contains i)) = true then
        acc ++ Nat.repr i ++ "=" ++ (getField row i).2 ++ unitSep
      else acc)
    ""

/-- Embedding of `accumulate_hash_row` (camt_csv.hpp): accumulate over the
given fields, or over `kHashCoreFields` when none are given. -/
def accumulate_hash_row (row : CAMTRow) (fields : List Nat) : String :=
  normalize_or_accumulate_row_acc row
    (if fields.length = 0 then kHashCoreFields else fields) true

/-- Concatenation of a list of strings, in order. -/
def concatStrs (l : List String) : String := l.foldr (fun a b => a ++ b) ""

/-- Spec-side fingerprint: the concatenation, for each selected field index
in ascending order, of the field's decimal index, `=`, its canonical value
and the 0x1F separator. -/
def hash_spec (row : CAMTRow) (sel : Nat → Bool) : String :=
  concatStrs ((List.range (min row.length ExportField.Count)).filterMap
    (fun i => if sel i then some (Nat.repr i ++ "=" ++ (getField row i).2 ++ unitSep)
      else none))

theorem foldl_select_concat (p : Nat → Bool) (g : Nat → String) :
    ∀ (l : List Nat) (acc : String),
      l.foldl (fun a i => if p i = true then a ++ g i else a) acc =
        acc ++ concatStrs (l.filterMap (fun i => if p i = true then some (g i) else none)) := by
  intro l
  induction l with
  | nil => intro acc; simp [concatStrs, String.append_empty]
  | cons x xs ih =>
    intro acc
    by_cases hp : p x = true
    · rw [List.foldl_cons, if_pos hp, ih, List.filterMap_cons]
      rw [if_pos hp]
      show (acc ++ g x) ++ _ = acc ++ (g x ++ _)
      rw [String.append_assoc]
      rfl
    · rw [List.foldl_cons, if_neg hp, ih, List.filterMap_cons]
      rw [if_neg hp]

theorem accumulate_hash_row_eq_spec (row : CAMTRow) (fields : List Nat) :
    accumulate_hash_row row fields =
      hash_spec row
        (fun i => (if fields.length = 0 then kHashCoreFields else fields).contains i) := by
  unfold accumulate_hash_row normalize_or_accumulate_row_acc hash_spec
  have hne : (if fields.length = 0 then kHashCoreFields else fields).length ≠ 0 := by
    by_cases h : fields.length = 0
    · rw [if_pos h]; decide
    · rw [if_neg h]; exact h
  have hsel : ∀ i, (if (if fields.length = 0 then kHashCoreFields else fields).length = 0
      then true
      else if true = true
        then (if fields.length = 0 then kHashCoreFields else fields).contains i
        else !((if fields.length = 0 then kHashCoreFields else fields).contains i)) =
      (if fields.length = 0 then kHashCoreFields else fields).contains i := by
    intro i
    rw [if_neg hne, if_pos rfl]
  have hbody : (fun (acc : String) i =>
      if (if (if fields.length = 0 then kHashCoreFields else fields).length = 0
          then true
          else if true = true
            then (if fields.length = 0 then kHashCoreFields else fields).contains i
            else !((if fields.length = 0 then kHashCoreFields else fields).contains i)) = true
      then acc ++ Nat.repr i ++ "=" ++ (getField row i).2 ++ unitSep
      else acc) =
    (fun (acc : String) i =>
      if ((if fields.length = 0 then kHashCoreFields else fields).contains i) = true
      then acc ++ (Nat.repr i ++ "=" ++ (getField row i).2 ++ unitSep)
      else acc) := by
    funext acc i
    rw [hsel i]
    by_cases hc : ((if fields.length = 0 then kHashCoreFields else fields).contains i) = true
    · rw [if_pos hc, if_pos hc]
      simp [String.append_assoc]
    · rw [if_neg hc, if_neg hc]
  rw [hbody, foldl_select_concat, String.empty_append]

/-- C7: the fingerprint equals the spec-side concatenation over the fixed
ascending field-index order, and it depends only on the membership of the
requested field set — reordering (or any other membership-preserving change
of) the requested list leaves the output byte-identical. -/
theorem C7_accumulate_hash_row :
    (∀ (row : CAMTRow) (fields : List Nat),
      accumulate_hash_row row fields =
        hash_spec row
          (fun i => (if fields.length = 0 then kHashCoreFields else fields).contains i)) ∧
    (∀ (row : CAMTRow) (f1 f2 : List Nat), (∀ i, i ∈ f1 ↔ i ∈ f2) →
      accumulate_hash_row row f1 = accumulate_hash_row row f2) := by
  refine ⟨accumulate_hash_row_eq_spec, ?_⟩
  intro row f1 f2 h
  rw [accumulate_hash_row_eq_spec, accumulate_hash_row_eq_spec]
  have hlen : (f1.length = 0) ↔ (f2.length = 0) := by
    rw [List.length_eq_zero, List.length_eq_zero]
    constructor
    · intro h1
      subst h1
      cases hf : f2 with
      | nil => rfl
      | cons y ys =>
        exact absurd ((h y).mpr (by rw [hf]; exact List.mem_cons_self y ys)) (by simp)
    · intro h2
      subst h2
      cases hf : f1 with
      | nil => rfl
      | cons y ys =>
        exact absurd ((h y).mp (by rw [hf]; exact List.mem_cons_self y ys)) (by simp)
  congr 1
  funext i
  by_cases h1 : f1.length = 0
  · rw [if_pos h1, if_pos (hlen.mp h1)]
  · rw [if_neg h1, if_neg (fun hc => h1 (hlen.mpr hc))]
    have hm : List.elem i f1 = true ↔ List.elem i f2 = true := by
      rw [List.elem_iff, List.elem_iff]
      exact h i
    show List.elem i f1 = List.elem i f2
    cases hc1 : List.elem i f1 <;> cases hc2 : List.elem i f2
    · rfl
    · exact absurd (hm.mpr hc2) (by rw [hc1]; decide)
    · exact absurd (hm.mp hc1) (by rw [hc2]; decide)
    · rfl

/-- Witness for C7: two orderings (and multiplicities) of the same field set
produce byte-identical fingerprints on a concrete row. -/
theorem C7_accumulate_hash_row_witness :
    accumulate_hash_row [("d", "c0"), ("x", "c1"), ("y", "c2")] [2, 0] =
      accumulate_hash_row [("d", "c0"), ("x", "c1"), ("y", "c2")] [0, 2, 2] :=
  C7_accumulate_hash_row.2 [("d", "c0"), ("x", "c1"), ("y", "c2")] [2, 0] [0, 2, 2]
    (by intro i; simp [List.mem_cons]; tauto)

/-! ### Claim C8: `reconcile_ccyxchg` -/

/-- FX information (`FxRateInfo` of camt_model.hpp).  The C++ `double` rate
is modelled as an exact rational; every comparison settled below has a
margin many orders of magnitude above IEEE-754 double rounding error, so the
branch decisions coincide with the floating-point execution. -/
structure FxRateInfo where
  srcCcy : String := ""
  trgtCcy : String := ""
  unitCcy : String := ""
  rate : ℚ := 0
  has : Bool := false
deriving DecidableEq

/-- The `toMajor` lambda of `reconcile_ccyxchg`: minor units to major units
using the currency's exponent. -/
def toMajor (ca : CurrencyAmount) : ℚ := (ca.minor : ℚ) / (10 : ℚ) ^ ccy_exp ca.currency

/-- Embedding of `reconcile_ccyxchg` (camt_parser_pugi.hpp), returning the
`(outEffectiveRate, outInverted)` pair. -/
def reconcile_ccyxchg (fx : FxRateInfo) (aSrc aTrg : Option CurrencyAmount) : ℚ × Bool :=
  match aSrc, aTrg with
  | some src, some trg =>
    if src.currency = "" ∨ trg.currency = "" then (0, false)
    else if src.minor = 0 ∨ trg.minor = 0 then (0, false)
    else
      let srcMaj := toMajor src
      let trgMaj := toMajor trg
      if srcMaj = 0 then (0, false)
      else
        let derived := trgMaj / srcMaj
        if fx.has = true ∧ fx.rate > 0 then
          let diffDirect := |fx.rate - derived|
          let diffInverse := |1 / fx.rate - derived|
          let tol := max (1 / 10 ^ 9) (|derived| * (1 / 10 ^ 6))
          if diffDirect ≤ tol then (fx.rate, false)
          else if diffInverse ≤ tol then (derived, true)
          else (derived, false)
        else (derived, false)
  | _, _ => (0, false)

theorem toMajor_ne_zero (ca : CurrencyAmount) (h : ca.minor ≠ 0) : toMajor ca ≠ 0 := by
  unfold toMajor
  exact div_ne_zero (Int.cast_ne_zero.mpr h) (pow_ne_zero _ (by norm_num))

/-- Evaluation of `reconcile_ccyxchg` at the spec's FX example: instructed
100.00 USD, settlement 92.00 EUR, supplied rate 1.0870.  The reciprocal
1/1.0870 differs from the derived 0.92 by 1/27175 ≈ 3.7e-5, far beyond the
tolerance max(1e-9, 0.92·1e-6) = 9.2e-7, so the neither-matches branch
silently replaces the supplied rate with the derived 0.92 and leaves the
inverted flag unset. -/
theorem reconcile_example_eval :
    reconcile_ccyxchg { srcCcy := "USD", trgtCcy := "EUR", rate := 1087 / 1000, has := true }
        (some { currency := "USD", minor := 10000 })
        (some { currency := "EUR", minor := 9200 }) = (23 / 25, false) := by
  simp only [reconcile_ccyxchg]
  rw [if_neg (by decide), if_neg (by decide)]
  have hexp1 : ccy_exp "USD" = 2 := by decide
  have hexp2 : ccy_exp "EUR" = 2 := by decide
  have hsrc : toMajor { currency := "USD", minor := 10000 } = 100 := by
    unfold toMajor
    rw [hexp1]
    norm_num
  have htrg : toMajor { currency := "EUR", minor := 9200 } = 92 := by
    unfold toMajor
    rw [hexp2]
    norm_num
  rw [hsrc, htrg]
  rw [if_neg (by norm_num)]
  have hder : (92 : ℚ) / 100 = 23 / 25 := by norm_num
  rw [if_pos (by constructor <;> norm_num)]
  rw [if_neg (by rw [hder]; norm_num [abs_of_nonneg]),
    if_neg (by rw [hder]; norm_num [abs_of_nonneg])]
  rw [hder]

/-- C8 counterexample: for instructed 100.00 USD, settlement 92.00 EUR and
supplied rate 1.0870 the engine does NOT set the inverted flag, contrary to
the claim's example. -/
theorem C8_example_not_inverted :
    reconcile_ccyxchg { srcCcy := "USD", trgtCcy := "EUR", rate := 1087 / 1000, has := true }
        (some { currency := "USD", minor := 10000 })
        (some { currency := "EUR", minor := 9200 }) = (23 / 25, false) ∧
    (reconcile_ccyxchg { srcCcy := "USD", trgtCcy := "EUR", rate := 1087 / 1000, has := true }
        (some { currency := "USD", minor := 10000 })
        (some { currency := "EUR", minor := 9200 })).2 ≠ true :=
  ⟨reconcile_example_eval, by rw [reconcile_example_eval]; decide⟩

/-- C8 (amended): the reconciliation derives rate = target major value /
source major value; a supplied positive rate is kept when it matches the
derived rate within tolerance max(1e-9, |derived|·1e-6), the derived value
is adopted with the inverted flag when only the reciprocal matches, and the
derived value silently replaces an implausible supplied rate; with no
supplied rate the derived value is adopted; missing, zero or currency-less
amounts leave the rate at zero.  The concrete spec example (100.00 USD
instructed, 92.00 EUR settlement, supplied 1.0870) falls in the
neither-matches branch: the derived rate 0.92 is adopted but the inverted
flag stays false. -/
theorem C8_reconcile_ccyxchg :
    (∀ (fx : FxRateInfo) (aTrg : Option CurrencyAmount),
      reconcile_ccyxchg fx none aTrg = (0, false)) ∧
    (∀ (fx : FxRateInfo) (aSrc : Option CurrencyAmount),
      reconcile_ccyxchg fx aSrc none = (0, false)) ∧
    (∀ (fx : FxRateInfo) (src trg : CurrencyAmount),
      src.currency = "" ∨ trg.currency = "" →
      reconcile_ccyxchg fx (some src) (some trg) = (0, false)) ∧
    (∀ (fx : FxRateInfo) (src trg : CurrencyAmount),
      src.minor = 0 ∨ trg.minor = 0 →
      reconcile_ccyxchg fx (some src) (some trg) = (0, false)) ∧
    (∀ (fx : FxRateInfo) (src trg : CurrencyAmount),
      src.currency ≠ "" → trg.currency ≠ "" → src.minor ≠ 0 → trg.minor ≠ 0 →
      ¬(fx.has = true ∧ fx.rate > 0) →
      reconcile_ccyxchg fx (some src) (some trg) = (toMajor trg / toMajor src, false)) ∧
    (∀ (fx : FxRateInfo) (src trg : CurrencyAmount),
      src.currency ≠ "" → trg.currency ≠ "" → src.minor ≠ 0 → trg.minor ≠ 0 →
      fx.has = true → fx.rate > 0 →
      (|fx.rate - toMajor trg / toMajor src| ≤
          max (1 / 10 ^ 9) (|toMajor trg / toMajor src| * (1 / 10 ^ 6)) →
        reconcile_ccyxchg fx (some src) (some trg) = (fx.rate, false)) ∧
      (¬(|fx.rate - toMajor trg / toMajor src| ≤
          max (1 / 10 ^ 9) (|toMajor trg / toMajor src| * (1 / 10 ^ 6))) →
        |1 / fx.rate - toMajor trg / toMajor src| ≤
          max (1 / 10 ^ 9) (|toMajor trg / toMajor src| * (1 / 10 ^ 6)) →
        reconcile_ccyxchg fx (some src) (some trg) = (toMajor trg / toMajor src, true)) ∧
      (¬(|fx.rate - toMajor trg / toMajor src| ≤
          max (1 / 10 ^ 9) (|toMajor trg / toMajor src| * (1 / 10 ^ 6))) →
        ¬(|1 / fx.rate - toMajor trg / toMajor src| ≤
          max (1 / 10 ^ 9) (|toMajor trg / toMajor src| * (1 / 10 ^ 6))) →
        reconcile_ccyxchg fx (some src) (some trg) = (toMajor trg / toMajor src, false))) ∧
    reconcile_ccyxchg { srcCcy := "USD", trgtCcy := "EUR", rate := 1087 / 1000, has := true }
        (some { currency := "USD", minor := 10000 })
        (some { currency := "EUR", minor := 9200 }) = (23 / 25, false) := by
  have hvalid : ∀ (fx : FxRateInfo) (src trg : CurrencyAmount),
      src.currency ≠ "" → trg.currency ≠ "" → src.minor ≠ 0 → trg.minor ≠ 0 →
      reconcile_ccyxchg fx (some src) (some trg) =
        (if fx.has = true ∧ fx.rate > 0 then
          if |fx.rate - toMajor trg / toMajor src| ≤
              max (1 / 10 ^ 9) (|toMajor trg / toMajor src| * (1 / 10 ^ 6)) then
            (fx.rate, false)
          else if |1 / fx.rate - toMajor trg / toMajor src| ≤
              max (1 / 10 ^ 9) (|toMajor trg / toMajor src| * (1 / 10 ^ 6)) then
            (toMajor trg / toMajor src, true)
          else (toMajor trg / toMajor src, false)
        else (toMajor trg / toMajor src, false)) := by
    intro fx src trg h1 h2 h3 h4
    simp only [reconcile_ccyxchg]
    rw [if_neg (by rintro (h | h) <;> [exact h1 h; exact h2 h]),
      if_neg (by rintro (h | h) <;> [exact h3 h; exact h4 h]),
      if_neg (toMajor_ne_zero src h3)]
  refine ⟨fun fx aTrg => rfl, ?_, ?_, ?_, ?_, ?_, reconcile_example_eval⟩
  · intro fx aSrc
    cases aSrc <;> rfl
  · intro fx src trg h
    simp only [reconcile_ccyxchg]
    rw [if_pos h]
  · intro fx src trg h
    simp only [reconcile_ccyxchg]
    by_cases hc : src.currency = "" ∨ trg.currency = ""
    · rw [if_pos hc]
    · rw [if_neg hc, if_pos h]
  · intro fx src trg h1 h2 h3 h4 h5
    rw [hvalid fx src trg h1 h2 h3 h4, if_neg h5]
  · intro fx src trg h1 h2 h3 h4 h5 h6
    refine ⟨?_, ?_, ?_⟩
    · intro hd
      rw [hvalid fx src trg h1 h2 h3 h4, if_pos ⟨h5, h6⟩, if_pos hd]
    · intro hd hi
      rw [hvalid fx src trg h1 h2 h3 h4, if_pos ⟨h5, h6⟩, if_neg hd, if_pos hi]
    · intro hd hi
      rw [hvalid fx src trg h1 h2 h3 h4, if_pos ⟨h5, h6⟩, if_neg hd, if_neg hi]

/-- Witness for C8 at a concrete degenerate input (zero source amount). -/
theorem C8_reconcile_ccyxchg_witness :
    reconcile_ccyxchg { rate := 1, has := true }
        (some { currency := "USD", minor := 0 })
        (some { currency := "EUR", minor := 9200 }) = (0, false) :=
  C8_reconcile_ccyxchg.2.2.2.1 { rate := 1, has := true }
    { currency := "USD", minor := 0 } { currency := "EUR", minor := 9200 }
    (Or.inl rfl)

/-! ### Claim C9: `find_payload` -/

/-- A generic XML element tree: name and children — attributes and text play
no role in payload location. -/
inductive XmlTree where
  | node (name : String) (children : List XmlTree)

def XmlTree.name : XmlTree → String
  | node n _ => n

def XmlTree.children : XmlTree → List XmlTree
  | node _ cs => cs

/-- The `ln` helper (camt_parser_pugi.hpp): local name after the last `:`
(`strrchr`). -/
def lnOf (s : String) : String :=
  match findLastPos s.toList ':' with
  | some p => String.mk (s.toList.drop (p + 1))
  | none => s

/-- The `isln` helper: local-name comparison. -/
def isln (t : XmlTree) (w : String) : Bool := lnOf t.name == w

mutual

/-- The `desc_any` helper: depth-first search over all descendants for one
local name (the node itself is not considered). -/
def desc_any : XmlTree → String → Option XmlTree
  | XmlTree.node _ cs, w => desc_list cs w

/-- `desc_any` over a sibling list: check each node, then its subtree, then
the following siblings. -/
def desc_list : List XmlTree → String → Option XmlTree
  | [], _ => none
  | c :: cs, w =>
    if isln c w then some c
    else
      match desc_any c w with
      | some f => some f
      | none => desc_list cs w

end

/-- Embedding of `find_payload` (camt_parser_pugi.hpp). -/
def find_payload (root : XmlTree) : Option XmlTree :=
  if isln root "BkToCstmrStmt" || isln root "BkToCstmrDbtCdtNtfctn" ||
      isln root "BkToCstmrAcctRpt" then some root
  else
    match (if isln root "Document" then
        root.children.find? (fun c => isln c "BkToCstmrStmt" ||
          isln c "BkToCstmrDbtCdtNtfctn" || isln c "BkToCstmrAcctRpt")
      else none) with
    | some c => some c
    | none =>
      match desc_any root "BkToCstmrStmt" with
      | some n => some n
      | none =>
        match desc_any root "BkToCstmrDbtCdtNtfctn" with
        | some n => some n
        | none => desc_any root "BkToCstmrAcctRpt"

/-- Any of the three known payload element names. -/
def isPayloadName (t : XmlTree) : Bool :=
  isln t "BkToCstmrStmt" || isln t "BkToCstmrDbtCdtNtfctn" || isln t "BkToCstmrAcctRpt"

/-- The three payload names in the priority order the code searches them. -/
def payloadNames : List String :=
  ["BkToCstmrStmt", "BkToCstmrDbtCdtNtfctn", "BkToCstmrAcctRpt"]

mutual

/-- Preorder (document-order) traversal of a tree. -/
def preorder : XmlTree → List XmlTree
  | XmlTree.node n cs => XmlTree.node n cs :: preorderList cs

/-- Preorder traversal of a sibling list. -/
def preorderList : List XmlTree → List XmlTree
  | [] => []
  | c :: cs => preorder c ++ preorderList cs

end

/-- The claim's payload-locating rule: the root itself, else the first
direct child with a payload name, else the first descendant in document
order carrying ANY of the three payload names. -/
def claim_find_payload (root : XmlTree) : Option XmlTree :=
  if isPayloadName root then some root
  else
    match root.children.find? isPayloadName with
    | some c => some c
    | none => (preorderList root.children).find? isPayloadName

/-- Amended payload-locating rule, matching the code: the root itself; then,
only when the root's local name is `Document`, the first direct child with a
payload name; finally a per-name depth-first search in the priority order
`Stmt`, `Ntfctn`, `AcctRpt`. -/
def find_payload_spec (root : XmlTree) : Option XmlTree :=
  if isPayloadName root then some root
  else
    match (if isln root "Document" then root.children.find? isPayloadName else none) with
    | some c => some c
    | none => payloadNames.findSome? (desc_any root)

/-- Concrete wrapper tree: no payload element at the root or as a direct
child; the first subtree holds a `BkToCstmrAcctRpt` (earlier in document
order), the second a `BkToCstmrStmt`. -/
def wrapTree : XmlTree :=
  XmlTree.node "Wrapper"
    [XmlTree.node "A" [XmlTree.node "BkToCstmrAcctRpt" []],
      XmlTree.node "B" [XmlTree.node "BkToCstmrStmt" []]]

/-- C9 counterexample: on `wrapTree` the code's descendant search is
per-name (priority `Stmt` > `Ntfctn` > `AcctRpt`), so it returns the
`BkToCstmrStmt` although the `BkToCstmrAcctRpt` occurs earlier in document
order; the claim's first-match-in-document-order rule returns the
`BkToCstmrAcctRpt`. -/
theorem C9_counterexample :
    find_payload wrapTree = some (XmlTree.node "BkToCstmrStmt" []) ∧
    claim_find_payload wrapTree = some (XmlTree.node "BkToCstmrAcctRpt" []) ∧
    find_payload wrapTree ≠ claim_find_payload wrapTree := by
  have i1 : isln (XmlTree.node "Wrapper"
      [XmlTree.node "A" [XmlTree.node "BkToCstmrAcctRpt" []],
        XmlTree.node "B" [XmlTree.node "BkToCstmrStmt" []]]) "BkToCstmrStmt" = false := by
    decide
  have i2 : isln (XmlTree.node "Wrapper"
      [XmlTree.node "A" [XmlTree.node "BkToCstmrAcctRpt" []],
        XmlTree.node "B" [XmlTree.node "BkToCstmrStmt" []]]) "BkToCstmrDbtCdtNtfctn" =
      false := by decide
  have i3 : isln (XmlTree.node "Wrapper"
      [XmlTree.node "A" [XmlTree.node "BkToCstmrAcctRpt" []],
        XmlTree.node "B" [XmlTree.node "BkToCstmrStmt" []]]) "BkToCstmrAcctRpt" =
      false := by decide
  have i4 : isln (XmlTree.node "Wrapper"
      [XmlTree.node "A" [XmlTree.node "BkToCstmrAcctRpt" []],
        XmlTree.node "B" [XmlTree.node "BkToCstmrStmt" []]]) "Document" = false := by decide
  have i5 : isln (XmlTree.node "A" [XmlTree.node "BkToCstmrAcctRpt" []])
      "BkToCstmrStmt" = false := by decide
  have i6 : isln (XmlTree.node "BkToCstmrAcctRpt" []) "BkToCstmrStmt" = false := by decide
  have i7 : isln (XmlTree.node "B" [XmlTree.node "BkToCstmrStmt" []])
      "BkToCstmrStmt" = false := by decide
  have i8 : isln (XmlTree.node "BkToCstmrStmt" []) "BkToCstmrStmt" = true := by decide
  have p1 : isPayloadName (XmlTree.node "Wrapper"
      [XmlTree.node "A" [XmlTree.node "BkToCstmrAcctRpt" []],
        XmlTree.node "B" [XmlTree.node "BkToCstmrStmt" []]]) = false := by decide
  have p2 : isPayloadName (XmlTree.node "A" [XmlTree.node "BkToCstmrAcctRpt" []]) =
      false := by decide
  have p3 : isPayloadName (XmlTree.node "B" [XmlTree.node "BkToCstmrStmt" []]) =
      false := by decide
  have p4 : isPayloadName (XmlTree.node "BkToCstmrAcctRpt" []) = true := by decide
  have h1 : find_payload wrapTree = some (XmlTree.node "BkToCstmrStmt" []) := by
    simp [find_payload, wrapTree, desc_any, desc_list, XmlTree.children,
      i1, i2, i3, i4, i5, i6, i7, i8]
  have h2 : claim_find_payload wrapTree = some (XmlTree.node "BkToCstmrAcctRpt" []) := by
    simp [claim_find_payload, wrapTree, XmlTree.children, preorder, preorderList,
      List.find?, p1, p2, p3, p4]
  refine ⟨h1, h2, ?_⟩
  rw [h1, h2]
  intro h
  injection h with h3
  injection h3 with h4 _
  exact absurd h4 (by decide)

theorem desc_list_eq_find (w : String) (l : List XmlTree) :
    desc_list l w = (preorderList l).find? (fun c => isln c w) := by
  match l with
  | [] =>
    rw [desc_list, preorderList]
    rfl
  | XmlTree.node n ccs :: cs =>
    have h1 := desc_list_eq_find w ccs
    have h2 := desc_list_eq_find w cs
    rw [desc_list, preorderList, preorder, List.cons_append, List.find?_cons]
    show _ = (match isln (XmlTree.node n ccs) w with
      | true => some (XmlTree.node n ccs)
      | false => (preorderList ccs ++ preorderList cs).find? (fun c => isln c w))
    cases hc : isln (XmlTree.node n ccs) w
    · rw [if_neg (by decide)]
      rw [show desc_any (XmlTree.node n ccs) w = desc_list ccs w from by rw [desc_any]]
      rw [h1, h2]
      show (match (preorderList ccs).find? (fun c => isln c w) with
        | some f => some f
        | none => (preorderList cs).find? (fun c => isln c w)) =
        (preorderList ccs ++ preorderList cs).find? (fun c => isln c w)
      rw [List.find?_append]
      cases (preorderList ccs).find? (fun c => isln c w) <;> rfl
    · rw [if_pos rfl]

theorem payload_findSome (f : String → Option XmlTree) :
    payloadNames.findSome? f =
      (match f "BkToCstmrStmt" with
        | some n => some n
        | none =>
          match f "BkToCstmrDbtCdtNtfctn" with
          | some n => some n
          | none => f "BkToCstmrAcctRpt") := by
  cases h1 : f "BkToCstmrStmt" with
  | some n => simp [payloadNames, List.findSome?, h1]
  | none =>
    cases h2 : f "BkToCstmrDbtCdtNtfctn" with
    | some n => simp [payloadNames, List.findSome?, h1, h2]
    | none =>
      cases h3 : f "BkToCstmrAcctRpt" <;>
        simp [payloadNames, List.findSome?, h1, h2, h3]

theorem find_payload_eq_spec (root : XmlTree) :
    find_payload root = find_payload_spec root := by
  unfold find_payload find_payload_spec
  cases hroot : isPayloadName root with
  | true =>
    have hroot2 : (isln root "BkToCstmrStmt" || isln root "BkToCstmrDbtCdtNtfctn" ||
        isln root "BkToCstmrAcctRpt") = true := hroot
    rw [hroot2, if_pos rfl, if_pos rfl]
  | false =>
    have hroot2 : (isln root "BkToCstmrStmt" || isln root "BkToCstmrDbtCdtNtfctn" ||
        isln root "BkToCstmrAcctRpt") = false := hroot
    rw [hroot2, if_neg (show ¬(false = true) by decide),
      if_neg (show ¬(false = true) by decide)]
    have hfind : root.children.find? (fun c => isln c "BkToCstmrStmt" ||
        isln c "BkToCstmrDbtCdtNtfctn" || isln c "BkToCstmrAcctRpt") =
        root.children.find? isPayloadName := rfl
    rw [hfind, payload_findSome (desc_any root)]

/-- C9 (amended): `find_payload` checks the root itself, then — only when
the root's local name is `Document` — the first direct child carrying a
payload name, and finally performs a per-name depth-first descendant search
in the priority order `BkToCstmrStmt`, `BkToCstmrDbtCdtNtfctn`,
`BkToCstmrAcctRpt`; within one name the first descendant in document order
wins (but a higher-priority name anywhere beats an earlier lower-priority
match, as the counterexample shows). -/
theorem C9_find_payload :
    (∀ root : XmlTree, find_payload root = find_payload_spec root) ∧
    (∀ (t : XmlTree) (w : String),
      desc_any t w = (preorderList t.children).find? (fun c => isln c w)) := by
  constructor
  · intro root
    exact find_payload_eq_spec root
  · intro t w
    match t with
    | XmlTree.node n cs =>
      rw [show desc_any (XmlTree.node n cs) w = desc_list cs w from by rw [desc_any]]
      exact desc_list_eq_find w cs

/-! ### Decimal formatting and the parse/format round trip (claim C10) -/

theorem digitsValNat_from (l : List Char) :
    ∀ a : Nat, l.foldl (fun a c => 10 * a + (c.toNat - 48)) a =
      a * 10 ^ l.length + digitsValNat l := by
  induction l with
  | nil => intro a; simp [digitsValNat]
  | cons c t ih =>
    intro a
    show t.foldl _ (10 * a + (c.toNat - 48)) = _
    rw [ih]
    have h2 : digitsValNat (c :: t) = (c.toNat - 48) * 10 ^ t.length + digitsValNat t := by
      show t.foldl _ (10 * 0 + (c.toNat - 48)) = _
      rw [ih]
      norm_num [digitsValNat]
    rw [h2, List.length_cons]
    ring

theorem digitsValNat_cons (c : Char) (t : List Char) :
    digitsValNat (c :: t) = (c.toNat - 48) * 10 ^ t.length + digitsValNat t := by
  show t.foldl _ (10 * 0 + (c.toNat - 48)) = _
  rw [digitsValNat_from]
  norm_num

theorem digitsValNat_append (x y : List Char) :
    digitsValNat (x ++ y) = digitsValNat x * 10 ^ y.length + digitsValNat y := by
  show (x ++ y).foldl _ 0 = _
  rw [List.foldl_append]
  exact digitsValNat_from y (digitsValNat x)

theorem digitsValNat_replicate_zero (k : Nat) :
    digitsValNat (List.replicate k '0') = 0 := by
  induction k with
  | zero => rfl
  | succ n ih =>
    rw [List.replicate_succ]
    show (List.replicate n '0').foldl _ (10 * 0 + ('0'.toNat - 48)) = 0
    have h0 : (10 * 0 + ('0'.toNat - 48)) = 0 := by decide
    rw [h0]
    exact ih

theorem isDigit_toNat_bounds (c : Char) (h : c.isDigit = true) :
    48 ≤ c.toNat ∧ c.toNat ≤ 57 := by
  simp [Char.isDigit] at h
  exact ⟨h.1, h.2⟩

theorem onlyDigits_replicate_zero (k : Nat) :
    onlyDigits (List.replicate k '0') = true := by
  simp [onlyDigits]

/-- Decimal digit character, value `d` (the `'0' + d` of the stream output). -/
def decChar (d : Nat) : Char := Char.ofNat (48 + d)

theorem decChar_facts (d : Nat) (h : d < 10) :
    (decChar d).isDigit = true ∧ (decChar d).toNat - 48 = d := by
  interval_cases d <;> exact ⟨by decide, by decide⟩

/-- Fuel-driven digit expansion of a natural number, most significant digit
first (the decimal rendering performed by `operator<<` on an integer). -/
def natDecAuxF : Nat → Nat → List Char
  | 0, _ => []
  | f+1, n => if n = 0 then [] else natDecAuxF f (n / 10) ++ [decChar (n % 10)]

/-- Decimal rendering of a natural number (`oss << major`). -/
def natDec (n : Nat) : List Char := if n = 0 then ['0'] else natDecAuxF n n

theorem natDecAuxF_spec : ∀ (f n : Nat), n ≤ f →
    onlyDigits (natDecAuxF f n) = true ∧
    digitsValNat (natDecAuxF f n) = n ∧
    (∀ k, n < 10 ^ k → (natDecAuxF f n).length ≤ k) := by
  intro f
  induction f with
  | zero =>
    intro n hn
    have : n = 0 := Nat.le_zero.mp hn
    subst this
    exact ⟨rfl, rfl, fun k _ => Nat.zero_le k⟩
  | succ m ih =>
    intro n hn
    by_cases h0 : n = 0
    · subst h0
      exact ⟨rfl, rfl, fun k _ => Nat.zero_le k⟩
    · have hstep : natDecAuxF (m+1) n = natDecAuxF m (n / 10) ++ [decChar (n % 10)] := by
        show (if n = 0 then [] else _) = _
        rw [if_neg h0]
      have hdiv : n / 10 ≤ m := by
        have := Nat.div_lt_self (Nat.pos_of_ne_zero h0) (show 1 < 10 by norm_num)
        omega
      obtain ⟨ihd, ihv, ihl⟩ := ih (n / 10) hdiv
      have hdc := decChar_facts (n % 10) (Nat.mod_lt n (by norm_num))
      have hv1 : digitsValNat [decChar (n % 10)] = n % 10 := by
        rw [digitsValNat_cons]
        simp [digitsValNat, hdc.2]
      refine ⟨?_, ?_, ?_⟩
      · rw [hstep]
        refine onlyDigits_append _ _ ihd ?_
        simp [onlyDigits, hdc.1]
      · rw [hstep, digitsValNat_append, ihv, hv1]
        simp only [List.length_singleton, pow_one]
        have := Nat.div_add_mod n 10
        omega
      · intro k hk
        rcases Nat.eq_zero_or_pos k with hk0 | hkpos
        · subst hk0
          simp at hk
          omega
        · obtain ⟨k1, rfl⟩ : ∃ k1, k = k1 + 1 := ⟨k - 1, by omega⟩
          have hd : n / 10 < 10 ^ k1 := by
            rw [Nat.div_lt_iff_lt_mul (by norm_num)]
            have : (10:Nat) ^ (k1+1) = 10 ^ k1 * 10 := by ring
            omega
          have := ihl k1 hd
          rw [hstep]
          simp only [List.length_append, List.length_cons, List.length_nil]
          omega

theorem natDec_spec (n : Nat) :
    onlyDigits (natDec n) = true ∧ digitsValNat (natDec n) = n ∧ natDec n ≠ [] ∧
    (∀ k, 0 < k → n < 10 ^ k → (natDec n).length ≤ k) := by
  by_cases h0 : n = 0
  · subst h0
    refine ⟨by decide, by decide, by decide, ?_⟩
    intro k hk _
    show (List.length ['0']) ≤ k
    simpa using hk
  · have hstep : natDec n = natDecAuxF n n := by
      show (if n = 0 then ['0'] else _) = _
      rw [if_neg h0]
    obtain ⟨hd, hv, hl⟩ := natDecAuxF_spec n n le_rfl
    refine ⟨hstep ▸ hd, hstep ▸ hv, ?_, fun k _ hk => hstep ▸ hl k hk⟩
    rw [hstep]
    intro he
    have := hv
    rw [he] at this
    exact h0 (by simpa [digitsValNat] using this.symm)

theorem parse_u64_go (t : List Char) :
    ∀ a : Nat, onlyDigits t = true →
      a * 10 ^ t.length + digitsValNat t ≤ UINT64_MAX →
      t.foldl
        (fun acc c =>
          match acc with
          | none => none
          | some out =>
            if c.isDigit then
              let d := c.toNat - 48
              if out > (UINT64_MAX - d) / 10 then none else some (out * 10 + d)
            else none)
        (some a) =
      some (a * 10 ^ t.length + digitsValNat t) := by
  induction t with
  | nil =>
    intro a _ _
    show some a = some (a * 10 ^ (0:Nat) + digitsValNat [])
    norm_num [digitsValNat]
  | cons c t ih =>
    intro a hdig hbound
    have hc : c.isDigit = true ∧ onlyDigits t = true := by
      simpa [onlyDigits] using hdig
    have hcons := digitsValNat_cons c t
    have hstepval : a * 10 ^ (c :: t).length + digitsValNat (c :: t) =
        (a * 10 + (c.toNat - 48)) * 10 ^ t.length + digitsValNat t := by
      rw [hcons, List.length_cons]
      ring
    have hbound2 : (a * 10 + (c.toNat - 48)) * 10 ^ t.length + digitsValNat t ≤
        UINT64_MAX := by
      rw [← hstepval]
      exact hbound
    have hchk : ¬ (a > (UINT64_MAX - (c.toNat - 48)) / 10) := by
      rw [not_lt, Nat.le_div_iff_mul_le (by norm_num)]
      have h1 : (a * 10 + (c.toNat - 48)) * 10 ^ t.length ≤ UINT64_MAX :=
        le_trans (Nat.le_add_right _ _) hbound2
      have h2 : a * 10 + (c.toNat - 48) ≤ UINT64_MAX := by
        have hp : 1 ≤ (10:Nat) ^ t.length := Nat.one_le_pow _ _ (by norm_num)
        calc a * 10 + (c.toNat - 48) = (a * 10 + (c.toNat - 48)) * 1 := by ring
        _ ≤ (a * 10 + (c.toNat - 48)) * 10 ^ t.length :=
            Nat.mul_le_mul_left _ hp
        _ ≤ UINT64_MAX := h1
      omega
    show List.foldl _ (if c.isDigit then _ else none) t = _
    rw [hc.1]
    show List.foldl _
      (if a > (UINT64_MAX - (c.toNat - 48)) / 10 then none
        else some (a * 10 + (c.toNat - 48))) t = _
    rw [if_neg hchk, hstepval]
    exact ih (a * 10 + (c.toNat - 48)) hc.2 hbound2

theorem parse_u64_digits (t : List Char) (h : onlyDigits t = true)
    (hb : digitsValNat t ≤ UINT64_MAX) : parse_u64 t = some (digitsValNat t) := by
  have := parse_u64_go t 0 h (by simpa using hb)
  simpa using this

theorem pow10_i64_eval (e : Nat) (h : (10:Int) ^ e ≤ INT64_MAX) :
    pow10_i64 e = some ((10:Int) ^ e) := by
  induction e with
  | zero => rfl
  | succ n ih =>
    have hn : (10:Int) ^ n ≤ INT64_MAX := by
      have h0 : (0:Int) ≤ 10 ^ n := pow_nonneg (by norm_num) n
      have h1 : (10:Int) ^ n * 10 ≤ INT64_MAX := by rw [← pow_succ]; exact h
      have hM : INT64_MAX = 9223372036854775807 := rfl
      rw [hM] at h1 ⊢
      generalize hx : (10:Int) ^ n = x at h0 h1
      omega
    have hfold : (List.range n).foldl
        (fun acc _ =>
          match acc with
          | none => none
          | some out => if out > INT64_MAX.tdiv 10 then none else some (out * 10))
        (some 1) = some ((10:Int) ^ n) := ih hn
    show (List.range (n+1)).foldl _ (some 1) = _
    rw [List.range_succ, List.foldl_append, hfold]
    have hle : ¬ ((10:Int) ^ n > INT64_MAX.tdiv 10) := by
      rw [not_lt]
      have hmax : INT64_MAX.tdiv 10 = 922337203685477580 := by decide
      rw [hmax]
      have h0 : (0:Int) ≤ 10 ^ n := pow_nonneg (by norm_num) n
      have h1 : (10:Int) ^ n * 10 ≤ INT64_MAX := by rw [← pow_succ]; exact h
      have hM : INT64_MAX = 9223372036854775807 := rfl
      rw [hM] at h1
      generalize hx : (10:Int) ^ n = x at h0 h1
      omega
    show (if (10:Int) ^ n > INT64_MAX.tdiv 10 then none
      else some ((10:Int) ^ n * 10)) = some ((10:Int) ^ (n+1))
    rw [if_neg hle, pow_succ]

theorem mul_check_nonneg (a b : Int) (ha : 0 ≤ a) (hb : 0 < b)
    (h : a * b ≤ INT64_MAX) : mul_check a b = some (a * b) := by
  unfold mul_check
  rcases eq_or_lt_of_le ha with ha0 | hapos
  · rw [if_pos (Or.inl ha0.symm), ← ha0, zero_mul]
  · rw [if_neg (by push_neg; exact ⟨(ne_of_gt hapos), (ne_of_gt hb)⟩),
      if_pos hapos, if_pos hb]
    have htd : INT64_MAX.tdiv b = INT64_MAX / b :=
      Int.tdiv_eq_ediv (by decide) (le_of_lt hb)
    rw [if_neg (by rw [not_lt, htd, Int.le_ediv_iff_mul_le hb]; exact h)]

theorem wrap64_id (x : Int) (h1 : 0 ≤ x) (h2 : x ≤ INT64_MAX) : wrap64 x = x := by
  have h2' : x ≤ 9223372036854775807 := h2
  show (x + 2 ^ 63) % 2 ^ 64 - 2 ^ 63 = x
  have e1 : (2:Int) ^ 63 = 9223372036854775808 := by norm_num
  have e2 : (2:Int) ^ 64 = 18446744073709551616 := by norm_num
  rw [e1, e2, Int.emod_eq_of_lt (by omega) (by omega)]
  omega

theorem dtm_number_eval (neg : Bool) (ip fp : List Char) (e : Int)
    (hip : onlyDigits ip = true) (hipne : ip ≠ [])
    (hfp : onlyDigits fp = true) (hfl : fp.length ≤ (max e 0).toNat)
    (hpow : (10:Int) ^ (max e 0).toNat ≤ INT64_MAX)
    (hval : (digitsValNat ip : Int) * 10 ^ (max e 0).toNat +
      (digitsValNat fp : Int) * 10 ^ ((max e 0).toNat - fp.length) ≤ INT64_MAX) :
    dtm_number neg ip fp e =
      (if neg then -1 else 1) *
        ((digitsValNat ip : Int) * 10 ^ (max e 0).toNat +
          (digitsValNat fp : Int) * 10 ^ ((max e 0).toNat - fp.length)) := by
  have hM : INT64_MAX = 9223372036854775807 := rfl
  have hU : UINT64_MAX = 18446744073709551615 := rfl
  have hpnn : (0:Int) ≤ 10 ^ (max e 0).toNat := pow_nonneg (by norm_num) _
  have hpnn2 : (0:Int) ≤ 10 ^ ((max e 0).toNat - fp.length) := pow_nonneg (by norm_num) _
  have hp1 : (1:Int) ≤ 10 ^ (max e 0).toNat := one_le_pow₀ (by norm_num)
  have hp12 : (1:Int) ≤ 10 ^ ((max e 0).toNat - fp.length) := one_le_pow₀ (by norm_num)
  have hipv : (digitsValNat ip : Int) ≤ INT64_MAX := by
    have h1 : (digitsValNat ip : Int) * 1 ≤ (digitsValNat ip : Int) * 10 ^ (max e 0).toNat :=
      mul_le_mul_of_nonneg_left hp1 (Int.natCast_nonneg _)
    have h2 : (digitsValNat ip : Int) * 10 ^ (max e 0).toNat ≤ INT64_MAX :=
      le_trans (le_add_of_nonneg_right
        (mul_nonneg (Int.natCast_nonneg _) hpnn2)) hval
    calc (digitsValNat ip : Int) = digitsValNat ip * 1 := by ring
    _ ≤ _ := le_trans h1 h2
  have hfpv : ((digitsValNat fp * 10 ^ ((max e 0).toNat - fp.length) : Nat) : Int) ≤
      INT64_MAX := by
    push_cast
    exact le_trans (le_add_of_nonneg_left
      (mul_nonneg (Int.natCast_nonneg _) hpnn)) hval
  have hu1 : digitsValNat ip ≤ UINT64_MAX := by
    rw [hM] at hipv
    rw [hU]
    omega
  have hu2 : digitsValNat fp * 10 ^ ((max e 0).toNat - fp.length) ≤ UINT64_MAX := by
    have h1 := hfpv
    rw [hM] at h1
    rw [hU]
    omega
  have hfracval : digitsValNat (fp ++ List.replicate ((max e 0).toNat - fp.length) '0') =
      digitsValNat fp * 10 ^ ((max e 0).toNat - fp.length) := by
    rw [digitsValNat_append, digitsValNat_replicate_zero, List.length_replicate]
    ring
  have hfracdig : onlyDigits (fp ++ List.replicate ((max e 0).toNat - fp.length) '0') =
      true := onlyDigits_append _ _ hfp (onlyDigits_replicate_zero _)
  have hpu1 : parse_u64 ip = some (digitsValNat ip) := parse_u64_digits ip hip hu1
  have hpu2 : parse_u64 (fp ++ List.replicate ((max e 0).toNat - fp.length) '0') =
      some (digitsValNat fp * 10 ^ ((max e 0).toNat - fp.length)) := by
    rw [parse_u64_digits _ hfracdig (by rw [hfracval]; exact hu2), hfracval]
  have hpow10 : pow10_i64 (max e 0).toNat = some ((10:Int) ^ (max e 0).toNat) :=
    pow10_i64_eval _ hpow
  have hmul : mul_check (digitsValNat ip) ((10:Int) ^ (max e 0).toNat) =
      some ((digitsValNat ip : Int) * 10 ^ (max e 0).toNat) :=
    mul_check_nonneg _ _ (Int.natCast_nonneg _) (lt_of_lt_of_le one_pos hp1)
      (le_trans (le_add_of_nonneg_right
        (mul_nonneg (Int.natCast_nonneg _) hpnn2)) hval)
  have hOK : (onlyDigits ip && onlyDigits fp) = true := by rw [hip, hfp]; rfl
  have hnotgt : ¬ ((digitsValNat ip : Int) > INT64_MAX) := not_lt.mpr hipv
  have hnotgt2 : ¬ (((digitsValNat fp * 10 ^ ((max e 0).toNat - fp.length) : Nat) : Int) >
      INT64_MAX) := not_lt.mpr hfpv
  have hnotlen : ¬ (fp.length > (max e 0).toNat) := not_lt.mpr hfl
  simp only [dtm_number]
  rw [if_neg hipne, hOK]
  show (if !true then (0:Int) else _) = _
  simp only [Bool.not_true, if_false]
  rw [if_neg hnotlen, hpu1, hpu2]
  show (if (digitsValNat ip : Int) > INT64_MAX then (0:Int) else _) = _
  rw [if_neg hnotgt, hpow10]
  show (match mul_check (digitsValNat ip) ((10:Int) ^ (max e 0).toNat) with
    | none => (0:Int)
    | some scaled_major =>
      if ((digitsValNat fp * 10 ^ ((max e 0).toNat - fp.length) : Nat) : Int) >
          INT64_MAX then 0
      else if neg then
        if scaled_major < INT64_MIN +
            ((digitsValNat fp * 10 ^ ((max e 0).toNat - fp.length) : Nat) : Int) then 0
        else
          let v := wrap64 (scaled_major +
            ((digitsValNat fp * 10 ^ ((max e 0).toNat - fp.length) : Nat) : Int))
          if v > 0 then -v else v
      else
        if scaled_major > INT64_MAX -
            ((digitsValNat fp * 10 ^ ((max e 0).toNat - fp.length) : Nat) : Int) then 0
        else scaled_major +
          ((digitsValNat fp * 10 ^ ((max e 0).toNat - fp.length) : Nat) : Int)) = _
  rw [hmul]
  show (if ((digitsValNat fp * 10 ^ ((max e 0).toNat - fp.length) : Nat) : Int) >
      INT64_MAX then (0:Int) else _) = _
  rw [if_neg hnotgt2]
  have hsum : (digitsValNat ip : Int) * 10 ^ (max e 0).toNat +
      ((digitsValNat fp * 10 ^ ((max e 0).toNat - fp.length) : Nat) : Int) =
      (digitsValNat ip : Int) * 10 ^ (max e 0).toNat +
        (digitsValNat fp : Int) * 10 ^ ((max e 0).toNat - fp.length) := by
    push_cast
    ring
  have hsumnn : (0:Int) ≤ (digitsValNat ip : Int) * 10 ^ (max e 0).toNat +
      ((digitsValNat fp * 10 ^ ((max e 0).toNat - fp.length) : Nat) : Int) :=
    add_nonneg (mul_nonneg (Int.natCast_nonneg _) hpnn) (Int.natCast_nonneg _)
  have hsumle : (digitsValNat ip : Int) * 10 ^ (max e 0).toNat +
      ((digitsValNat fp * 10 ^ ((max e 0).toNat - fp.length) : Nat) : Int) ≤
      INT64_MAX := by rw [hsum]; exact hval
  have hMIN : INT64_MIN = -9223372036854775808 := rfl
  have hguard1 : ¬ ((digitsValNat ip : Int) * 10 ^ (max e 0).toNat < INT64_MIN +
      ((digitsValNat fp * 10 ^ ((max e 0).toNat - fp.length) : Nat) : Int)) := by
    rw [not_lt, hMIN]
    have h1 := hfpv
    rw [hM] at h1
    have h2 : (0:Int) ≤ (digitsValNat ip : Int) * 10 ^ (max e 0).toNat :=
      mul_nonneg (Int.natCast_nonneg _) hpnn
    omega
  have hguard2 : ¬ ((digitsValNat ip : Int) * 10 ^ (max e 0).toNat > INT64_MAX -
      ((digitsValNat fp * 10 ^ ((max e 0).toNat - fp.length) : Nat) : Int)) := by
    rw [gt_iff_lt, not_lt, hM]
    have h1 := hsumle
    rw [hM] at h1
    omega
  cases neg with
  | false =>
    show (if (digitsValNat ip : Int) * 10 ^ (max e 0).toNat > INT64_MAX -
        ((digitsValNat fp * 10 ^ ((max e 0).toNat - fp.length) : Nat) : Int) then (0:Int)
      else _) = _
    rw [if_neg hguard2, hsum]
    norm_num
  | true =>
    show (if (digitsValNat ip : Int) * 10 ^ (max e 0).toNat < INT64_MIN +
        ((digitsValNat fp * 10 ^ ((max e 0).toNat - fp.length) : Nat) : Int) then (0:Int)
      else _) = _
    rw [if_neg hguard1]
    show (if wrap64 ((digitsValNat ip : Int) * 10 ^ (max e 0).toNat +
        ((digitsValNat fp * 10 ^ ((max e 0).toNat - fp.length) : Nat) : Int)) > 0 then
        -wrap64 ((digitsValNat ip : Int) * 10 ^ (max e 0).toNat +
          ((digitsValNat fp * 10 ^ ((max e 0).toNat - fp.length) : Nat) : Int))
      else wrap64 ((digitsValNat ip : Int) * 10 ^ (max e 0).toNat +
        ((digitsValNat fp * 10 ^ ((max e 0).toNat - fp.length) : Nat) : Int))) = _
    rw [wrap64_id _ hsumnn hsumle, hsum]
    rcases lt_or_eq_of_le (hsum ▸ hsumnn) with hpos | hzero
    · rw [if_pos hpos]
      norm_num
    · rw [if_neg (by omega)]
      norm_num
      omega

theorem dtm_parts_nodot (L : List Char) (h : onlyDigits L = true) :
    dtm_parts L = (L, ([] : List Char)) := by
  have hd := mem_digits L h
  have h1 : findLastPos L '.' = none :=
    findLastPos_eq_none _ _ (fun x hx => (char_digit_facts x (hd x hx)).1)
  have h2 : findLastPos L ',' = none :=
    findLastPos_eq_none _ _ (fun x hx => (char_digit_facts x (hd x hx)).2.1)
  unfold dtm_parts dtm_decSep
  rw [h1, h2]

theorem head?_digits_ne (l : List Char) (hl : ∀ x ∈ l, x.isDigit = true)
    (w : Char) (hw : w.isDigit = false) : l.head? ≠ some w := by
  cases l with
  | nil => simp
  | cons x xs =>
    simp only [List.head?_cons]
    intro he
    have hx : x = w := by simpa using he
    have hd := hl x (by simp)
    rw [hx, hw] at hd
    exact absurd hd (by decide)

theorem dec_to_minor_wf_dot (neg : Bool) (ip fp : List Char) (e : Int)
    (hip : onlyDigits ip = true) (hfp : onlyDigits fp = true) :
    dec_to_minor (String.mk ((if neg then ['-'] else []) ++ ip ++ '.' :: fp)) e =
      dtm_number neg ip fp e := by
  have hipd := mem_digits ip hip
  have hfpd := mem_digits fp hfp
  have hmix : ∀ x ∈ ip ++ '.' :: fp, isStrippedChar x = false := by
    refine mem_mixed_not_stripped _ ?_
    intro x hx
    rcases List.mem_append.mp hx with h | h
    · exact Or.inl (hipd x h)
    · rcases List.mem_cons.mp h with h | h
      · exact Or.inr (Or.inl h)
      · exact Or.inl (hfpd x h)
  cases neg with
  | false =>
    show dec_to_minor (String.mk ([] ++ ip ++ '.' :: fp)) e = _
    rw [List.nil_append,
      dec_to_minor_mk_struct _ _ hmix
        (head?_append_cons_ne ip '.' _ hipd '(' (by decide) (by decide))
        (head?_append_cons_ne ip '.' _ hipd '+' (by decide) (by decide))
        (head?_append_cons_ne ip '.' _ hipd '-' (by decide) (by decide)),
      dtm_parts_dot ip fp hip hfp]
  | true =>
    show dec_to_minor (String.mk ('-' :: (ip ++ '.' :: fp))) e = _
    rw [dec_to_minor_eq, dtm_clean_mk_eq_self _ ?hmem]
    case hmem =>
      intro x hx
      rcases List.mem_cons.mp hx with h | h
      · subst h; decide
      · exact hmix x h
    rw [dtm_parens_skip _ (by simp), show dtm_signC (false, '-' :: (ip ++ '.' :: fp)) =
        (true, ip ++ '.' :: fp) from by simp [dtm_signC],
      dtm_parts_dot ip fp hip hfp]

theorem dec_to_minor_wf_int (neg : Bool) (ip : List Char) (e : Int)
    (hip : onlyDigits ip = true) :
    dec_to_minor (String.mk ((if neg then ['-'] else []) ++ ip)) e =
      dtm_number neg ip [] e := by
  have hipd := mem_digits ip hip
  have hmem : ∀ x ∈ ip, isStrippedChar x = false :=
    fun x hx => (char_digit_facts x (hipd x hx)).2.2.2.2.2.2
  cases neg with
  | false =>
    show dec_to_minor (String.mk ([] ++ ip)) e = _
    rw [List.nil_append,
      dec_to_minor_mk_struct _ _ hmem
        (head?_digits_ne ip hipd '(' (by decide))
        (head?_digits_ne ip hipd '+' (by decide))
        (head?_digits_ne ip hipd '-' (by decide)),
      dtm_parts_nodot ip hip]
  | true =>
    show dec_to_minor (String.mk ('-' :: ip)) e = _
    rw [dec_to_minor_eq, dtm_clean_mk_eq_self _ ?hmem]
    case hmem =>
      intro x hx
      rcases List.mem_cons.mp hx with h | h
      · subst h; decide
      · exact hmem x h
    rw [dtm_parens_skip _ (by simp), show dtm_signC (false, '-' :: ip) =
        (true, ip) from by simp [dtm_signC],
      dtm_parts_nodot ip hip]

theorem takeWhile_no_dot (X : List Char) (hX : ∀ x ∈ X, x ≠ '.') :
    X.takeWhile (fun c => c ≠ '.') = X ∧
    X.dropWhile (fun c => c ≠ '.') = ([] : List Char) := by
  induction X with
  | nil => exact ⟨rfl, rfl⟩
  | cons c t ih =>
    have hc : c ≠ '.' := hX c (by simp)
    have iht := ih (fun x hx => hX x (by simp [hx]))
    refine ⟨?_, ?_⟩
    · simp only [List.takeWhile_cons]
      rw [if_pos (by simpa using hc), iht.1]
    · simp only [List.dropWhile_cons]
      rw [if_pos (by simpa using hc), iht.2]

theorem takeWhile_dot_split (X Y : List Char) (hX : ∀ x ∈ X, x ≠ '.') :
    (X ++ '.' :: Y).takeWhile (fun c => c ≠ '.') = X ∧
    (X ++ '.' :: Y).dropWhile (fun c => c ≠ '.') = '.' :: Y := by
  induction X with
  | nil =>
    refine ⟨?_, ?_⟩
    · show ('.' :: Y).takeWhile _ = []
      simp [List.takeWhile_cons]
    · show ('.' :: Y).dropWhile _ = '.' :: Y
      simp [List.dropWhile_cons]
  | cons c t ih =>
    have hc : c ≠ '.' := hX c (by simp)
    have iht := ih (fun x hx => hX x (by simp [hx]))
    refine ⟨?_, ?_⟩
    · rw [List.cons_append]
      simp only [List.takeWhile_cons]
      rw [if_pos (by simpa using hc), iht.1]
    · rw [List.cons_append]
      simp only [List.dropWhile_cons]
      rw [if_pos (by simpa using hc), iht.2]

/-- Embedding of `fmt_amount` (camt_csv.hpp): minor units to decimal text.
The stream output `oss << major` is the decimal digit expansion `natDec`;
`std::setw(exp)`/`std::setfill('0')` left-pads the fractional digits to at
least `exp` characters. -/
def fmt_amount (a : CurrencyAmount) (use_decimal_comma : Bool) : String :=
  let exp := ccy_exp a.currency
  let v := a.minor
  let neg := v < 0
  let v1 := if neg then -v else v
  let pow10 : Int := 10 ^ exp
  let major := v1.tdiv pow10
  let frac := v1.tmod pow10
  String.mk ((if neg then ['-'] else []) ++ natDec major.toNat ++
    (if 0 < exp then
      (if use_decimal_comma then ',' else '.') ::
        (List.replicate (exp - (natDec frac.toNat).length) '0' ++ natDec frac.toNat)
    else []))

/-- Spec-side reading of a canonical well-formed decimal string (no sign):
a non-empty digit run, optionally followed by `.` and a non-empty digit run
of at most `exp` digits; the value in minor units of exponent `exp`. -/
def decNumCore (l1 : List Char) (exp : Nat) : Option Nat :=
  let ip := l1.takeWhile (fun c => c ≠ '.')
  let rest := l1.dropWhile (fun c => c ≠ '.')
  let fp := rest.tail
  if ip ≠ [] ∧ onlyDigits ip = true ∧
      (rest = [] ∨ (rest.head? = some '.' ∧ fp ≠ [] ∧ onlyDigits fp = true ∧
        fp.length ≤ exp))
  then some (digitsValNat ip * 10 ^ exp + digitsValNat fp * 10 ^ (exp - fp.length))
  else none

/-- Spec-side numeric value of a well-formed decimal string: an optional
leading `-`, then a canonical decimal number (`decNumCore`).  `none` means
the string is not well-formed for the given exponent. -/
def decNumValue (s : String) (exp : Nat) : Option Int :=
  if s.toList.head? = some '-' then
    (decNumCore s.toList.tail exp).map (fun n => -(n : Int))
  else
    (decNumCore s.toList exp).map (fun n => (n : Int))

theorem decNumCore_inv (l1 : List Char) (exp : Nat) (n : Nat)
    (h : decNumCore l1 exp = some n) :
    ∃ ip fp : List Char, onlyDigits ip = true ∧ ip ≠ [] ∧ onlyDigits fp = true ∧
      fp.length ≤ exp ∧ l1 = ip ++ (if fp = [] then [] else '.' :: fp) ∧
      n = digitsValNat ip * 10 ^ exp + digitsValNat fp * 10 ^ (exp - fp.length) := by
  simp only [decNumCore] at h
  split at h
  case isFalse => exact absurd h (by simp)
  case isTrue hc =>
    obtain ⟨h1, h2, h3⟩ := hc
    have hl1 : l1.takeWhile (fun c => c ≠ '.') ++ l1.dropWhile (fun c => c ≠ '.') = l1 :=
      List.takeWhile_append_dropWhile _ _
    have hn := (Option.some.inj h).symm
    rcases h3 with hrest | ⟨hhead, hfpne, hfpd, hfl⟩
    · refine ⟨l1.takeWhile (fun c => c ≠ '.'), [], h2, h1, rfl, by simp, ?_, ?_⟩
      · rw [if_pos rfl, List.append_nil]
        conv_lhs => rw [← hl1]
        rw [hrest, List.append_nil]
      · rw [hrest] at hn
        simpa using hn
    · cases hrest : l1.dropWhile (fun c => c ≠ '.') with
      | nil =>
        rw [hrest] at hhead
        simp at hhead
      | cons a as =>
        have ha : a = '.' := by
          rw [hrest] at hhead
          simpa using hhead
        subst ha
        have has : as ≠ [] := by
          rw [hrest] at hfpne
          simpa using hfpne
        refine ⟨l1.takeWhile (fun c => c ≠ '.'), as, h2, h1, ?_, ?_, ?_, ?_⟩
        · rw [hrest] at hfpd
          simpa using hfpd
        · rw [hrest] at hfl
          simpa using hfl
        · rw [if_neg has]
          conv_lhs => rw [← hl1]
          rw [hrest]
        · rw [hrest] at hn
          simpa using hn

theorem ccy_exp_le (ccy : String) : ccy_exp ccy ≤ 4 := by
  unfold ccy_exp
  split_ifs <;> norm_num

theorem pow10_exp_le (ccy : String) :
    (10:Int) ^ (max ((ccy_exp ccy : Int)) 0).toNat ≤ INT64_MAX := by
  rw [max_eq_left (Int.natCast_nonneg _), Int.toNat_natCast]
  calc (10:Int) ^ ccy_exp ccy ≤ 10 ^ 4 :=
    pow_le_pow_right₀ (by norm_num) (ccy_exp_le ccy)
  _ ≤ INT64_MAX := by rw [show INT64_MAX = 9223372036854775807 from rfl]; norm_num

theorem parse_decimal_wf (s ccy : String) (v : Int)
    (h : decNumValue s (ccy_exp ccy) = some v) (hr : |v| ≤ INT64_MAX) :
    parse_decimal s ccy = v := by
  have hclamp : (max ((ccy_exp ccy : Int)) 0).toNat = ccy_exp ccy := by
    rw [max_eq_left (Int.natCast_nonneg _), Int.toNat_natCast]
  have hs0 : String.mk s.toList = s := rfl
  unfold decNumValue at h
  split at h
  case isTrue hsign =>
    cases hcore : decNumCore s.toList.tail (ccy_exp ccy) with
    | none =>
      rw [hcore] at h
      exact absurd h (by simp)
    | some n =>
      rw [hcore] at h
      have hv : v = -(n : Int) := by simpa using h.symm
      obtain ⟨ip, fp, hip, hipne, hfp, hfl, hshape, hn⟩ := decNumCore_inv _ _ _ hcore
      have hnle : (n : Int) ≤ INT64_MAX := by
        have : |v| = (n : Int) := by rw [hv]; simp
        rw [← this]
        exact hr
      have hval : (digitsValNat ip : Int) * 10 ^ (max ((ccy_exp ccy : Int)) 0).toNat +
          (digitsValNat fp : Int) * 10 ^ ((max ((ccy_exp ccy : Int)) 0).toNat - fp.length) ≤
          INT64_MAX := by
        rw [hclamp]
        calc (digitsValNat ip : Int) * 10 ^ ccy_exp ccy +
            (digitsValNat fp : Int) * 10 ^ (ccy_exp ccy - fp.length) = (n : Int) := by
              rw [hn]; push_cast; ring
        _ ≤ INT64_MAX := hnle
      have hlist : s.toList = '-' :: s.toList.tail := by
        cases hL : s.toList with
        | nil => rw [hL] at hsign; simp at hsign
        | cons c t =>
          rw [hL] at hsign
          have : c = '-' := by simpa using hsign
          rw [this]
          rfl
      have hsmk : s = String.mk ('-' :: (ip ++ (if fp = [] then [] else '.' :: fp))) := by
        rw [← hs0, hlist, hshape]
      show dec_to_minor s ((ccy_exp ccy : Int)) = v
      rw [hsmk]
      by_cases hfp0 : fp = []
      · subst hfp0
        rw [if_pos rfl, List.append_nil]
        have := dec_to_minor_wf_int true ip ((ccy_exp ccy : Int)) hip
        rw [show ((if true then ['-'] else []) ++ ip) = '-' :: ip from rfl] at this
        rw [this, dtm_number_eval true ip [] _ hip hipne rfl (Nat.zero_le _)
          (pow10_exp_le ccy) hval, hv, hclamp, if_pos rfl, hn]
        push_cast
        ring
      · rw [if_neg hfp0]
        have := dec_to_minor_wf_dot true ip fp ((ccy_exp ccy : Int)) hip hfp
        rw [show ((if true then ['-'] else []) ++ ip ++ '.' :: fp) =
          '-' :: (ip ++ '.' :: fp) from rfl] at this
        rw [this, dtm_number_eval true ip fp _ hip hipne hfp
          (by rw [hclamp]; exact hfl) (pow10_exp_le ccy) hval, hv, hclamp,
          if_pos rfl, hn]
        push_cast
        ring
  case isFalse hsign =>
    cases hcore : decNumCore s.toList (ccy_exp ccy) with
    | none =>
      rw [hcore] at h
      exact absurd h (by simp)
    | some n =>
      rw [hcore] at h
      have hv : v = (n : Int) := by simpa using h.symm
      obtain ⟨ip, fp, hip, hipne, hfp, hfl, hshape, hn⟩ := decNumCore_inv _ _ _ hcore
      have hnle : (n : Int) ≤ INT64_MAX := by
        have : |v| = (n : Int) := by rw [hv]; simp
        rw [← this]
        exact hr
      have hval : (digitsValNat ip : Int) * 10 ^ (max ((ccy_exp ccy : Int)) 0).toNat +
          (digitsValNat fp : Int) * 10 ^ ((max ((ccy_exp ccy : Int)) 0).toNat - fp.length) ≤
          INT64_MAX := by
        rw [hclamp]
        calc (digitsValNat ip : Int) * 10 ^ ccy_exp ccy +
            (digitsValNat fp : Int) * 10 ^ (ccy_exp ccy - fp.length) = (n : Int) := by
              rw [hn]; push_cast; ring
        _ ≤ INT64_MAX := hnle
      have hsmk : s = String.mk (ip ++ (if fp = [] then [] else '.' :: fp)) := by
        rw [← hs0, hshape]
      show dec_to_minor s ((ccy_exp ccy : Int)) = v
      rw [hsmk]
      by_cases hfp0 : fp = []
      · subst hfp0
        rw [if_pos rfl, List.append_nil]
        have := dec_to_minor_wf_int false ip ((ccy_exp ccy : Int)) hip
        rw [show ((if false then ['-'] else []) ++ ip) = ip from by simp] at this
        rw [this, dtm_number_eval false ip [] _ hip hipne rfl (Nat.zero_le _)
          (pow10_exp_le ccy) hval, hv, hclamp, if_neg (by decide), hn]
        push_cast
        ring
      · rw [if_neg hfp0]
        have := dec_to_minor_wf_dot false ip fp ((ccy_exp ccy : Int)) hip hfp
        rw [show ((if false then ['-'] else []) ++ ip ++ '.' :: fp) =
          ip ++ '.' :: fp from by simp] at this
        rw [this, dtm_number_eval false ip fp _ hip hipne hfp
          (by rw [hclamp]; exact hfl) (pow10_exp_le ccy) hval, hv, hclamp,
          if_neg (by decide), hn]
        push_cast
        ring

theorem decNumCore_dot_eval (ip fp : List Char) (E : Nat)
    (hip : onlyDigits ip = true) (hipne : ip ≠ [])
    (hfp : onlyDigits fp = true) (hfpne : fp ≠ []) (hfl : fp.length ≤ E) :
    decNumCore (ip ++ '.' :: fp) E =
      some (digitsValNat ip * 10 ^ E + digitsValNat fp * 10 ^ (E - fp.length)) := by
  have hX : ∀ x ∈ ip, x ≠ '.' :=
    fun x hx => (char_digit_facts x (mem_digits ip hip x hx)).1
  obtain ⟨htw, hdw⟩ := takeWhile_dot_split ip fp hX
  simp only [decNumCore]
  rw [htw, hdw]
  simp only [List.tail_cons]
  rw [if_pos ⟨hipne, hip, Or.inr ⟨by simp, hfpne, hfp, hfl⟩⟩]

theorem decNumCore_int_eval (ip : List Char) (E : Nat)
    (hip : onlyDigits ip = true) (hipne : ip ≠ []) :
    decNumCore ip E = some (digitsValNat ip * 10 ^ E) := by
  have hX : ∀ x ∈ ip, x ≠ '.' :=
    fun x hx => (char_digit_facts x (mem_digits ip hip x hx)).1
  obtain ⟨htw, hdw⟩ := takeWhile_no_dot ip hX
  simp only [decNumCore]
  rw [htw, hdw]
  simp only [List.tail_nil]
  rw [if_pos ⟨hipne, hip, Or.inl (by trivial)⟩]
  have h0 : digitsValNat [] = 0 := rfl
  rw [h0]
  norm_num

theorem fmt_amount_toList (ccy : String) (v : Int) :
    (fmt_amount ⟨ccy, v⟩ false).toList =
      (if v < 0 then ['-'] else []) ++ natDec (v.natAbs / 10 ^ ccy_exp ccy) ++
      (if 0 < ccy_exp ccy then
        '.' :: (List.replicate
            (ccy_exp ccy - (natDec (v.natAbs % 10 ^ ccy_exp ccy)).length) '0' ++
          natDec (v.natAbs % 10 ^ ccy_exp ccy))
      else []) := by
  have habs : (if v < 0 then -v else v) = ((v.natAbs : Int)) := by
    rcases lt_or_le v 0 with h | h
    · rw [if_pos h, Int.natCast_natAbs, abs_of_neg h]
    · rw [if_neg (not_lt.mpr h), Int.natCast_natAbs, abs_of_nonneg h]
  have hpowc : ((10:Int)) ^ ccy_exp ccy = (((10:Nat) ^ ccy_exp ccy : Nat) : Int) := by
    push_cast
    ring
  have hdiv : ((v.natAbs : Int)).tdiv ((10:Int) ^ ccy_exp ccy) =
      ((v.natAbs / 10 ^ ccy_exp ccy : Nat) : Int) := by
    rw [hpowc]
    exact rfl
  have hmod : ((v.natAbs : Int)).tmod ((10:Int) ^ ccy_exp ccy) =
      ((v.natAbs % 10 ^ ccy_exp ccy : Nat) : Int) := by
    rw [hpowc]
    exact rfl
  simp only [fmt_amount]
  rw [habs, hdiv, hmod, Int.toNat_natCast, Int.toNat_natCast]
  exact rfl

theorem fmt_roundtrip (ccy : String) (v : Int) :
    decNumValue (fmt_amount ⟨ccy, v⟩ false) (ccy_exp ccy) = some v ∧
    (0 < ccy_exp ccy →
      (((fmt_amount ⟨ccy, v⟩ false).toList.dropWhile (fun c => c ≠ '.')).tail).length =
        ccy_exp ccy) := by
  have hE10 : 0 < (10:Nat) ^ ccy_exp ccy := Nat.pos_pow_of_pos _ (by norm_num)
  have hMspec := natDec_spec (v.natAbs / 10 ^ ccy_exp ccy)
  have hFspec := natDec_spec (v.natAbs % 10 ^ ccy_exp ccy)
  have hMd := mem_digits _ hMspec.1
  have hFlt : v.natAbs % 10 ^ ccy_exp ccy < 10 ^ ccy_exp ccy := Nat.mod_lt _ hE10
  have hNval : v.natAbs / 10 ^ ccy_exp ccy * 10 ^ ccy_exp ccy +
      v.natAbs % 10 ^ ccy_exp ccy = v.natAbs := by
    rw [mul_comm]
    exact Nat.div_add_mod _ _
  have habs : ((v.natAbs : Int)) = |v| := Int.natCast_natAbs v
  by_cases hE : 0 < ccy_exp ccy
  · -- fractional part present
    have hdlen : (natDec (v.natAbs % 10 ^ ccy_exp ccy)).length ≤ ccy_exp ccy :=
      hFspec.2.2.2 _ hE hFlt
    have hpadlen : (List.replicate
        (ccy_exp ccy - (natDec (v.natAbs % 10 ^ ccy_exp ccy)).length) '0' ++
        natDec (v.natAbs % 10 ^ ccy_exp ccy)).length = ccy_exp ccy := by
      rw [List.length_append, List.length_replicate]
      omega
    have hpaddig : onlyDigits (List.replicate
        (ccy_exp ccy - (natDec (v.natAbs % 10 ^ ccy_exp ccy)).length) '0' ++
        natDec (v.natAbs % 10 ^ ccy_exp ccy)) = true :=
      onlyDigits_append _ _ (onlyDigits_replicate_zero _) hFspec.1
    have hpadne : (List.replicate
        (ccy_exp ccy - (natDec (v.natAbs % 10 ^ ccy_exp ccy)).length) '0' ++
        natDec (v.natAbs % 10 ^ ccy_exp ccy)) ≠ [] :=
      List.ne_nil_of_length_pos (by rw [hpadlen]; exact hE)
    have hpadval : digitsValNat (List.replicate
        (ccy_exp ccy - (natDec (v.natAbs % 10 ^ ccy_exp ccy)).length) '0' ++
        natDec (v.natAbs % 10 ^ ccy_exp ccy)) = v.natAbs % 10 ^ ccy_exp ccy := by
      rw [digitsValNat_append, digitsValNat_replicate_zero, hFspec.2.1]
      ring
    have hcore : decNumCore (natDec (v.natAbs / 10 ^ ccy_exp ccy) ++
        '.' :: (List.replicate
          (ccy_exp ccy - (natDec (v.natAbs % 10 ^ ccy_exp ccy)).length) '0' ++
          natDec (v.natAbs % 10 ^ ccy_exp ccy))) (ccy_exp ccy) =
        some v.natAbs := by
      rw [decNumCore_dot_eval _ _ _ hMspec.1 hMspec.2.2.1 hpaddig hpadne
        (le_of_eq hpadlen), hMspec.2.1, hpadval, hpadlen]
      rw [Nat.sub_self, pow_zero, mul_one, hNval]
    have hlist := fmt_amount_toList ccy v
    rw [if_pos hE] at hlist
    constructor
    · unfold decNumValue
      rcases lt_or_le v 0 with hv | hv
      · rw [if_pos hv] at hlist
        rw [if_pos (by rw [hlist]; rfl)]
        rw [show (fmt_amount ⟨ccy, v⟩ false).toList.tail =
            natDec (v.natAbs / 10 ^ ccy_exp ccy) ++
            '.' :: (List.replicate
              (ccy_exp ccy - (natDec (v.natAbs % 10 ^ ccy_exp ccy)).length) '0' ++
              natDec (v.natAbs % 10 ^ ccy_exp ccy)) from by rw [hlist]; rfl]
        rw [hcore]
        show some (-((v.natAbs : Int))) = some v
        rw [habs, abs_of_neg hv, neg_neg]
      · rw [if_neg (not_lt.mpr hv)] at hlist
        rw [List.nil_append] at hlist
        have hhead : (fmt_amount ⟨ccy, v⟩ false).toList.head? ≠ some '-' := by
          rw [hlist]
          exact head?_append_cons_ne _ '.' _ hMd '-' (by decide) (by decide)
        rw [if_neg hhead, hlist, hcore]
        show some ((v.natAbs : Int)) = some v
        rw [habs, abs_of_nonneg hv]
    · intro _
      have hsplit := takeWhile_dot_split
        ((if v < 0 then ['-'] else []) ++ natDec (v.natAbs / 10 ^ ccy_exp ccy))
        (List.replicate
          (ccy_exp ccy - (natDec (v.natAbs % 10 ^ ccy_exp ccy)).length) '0' ++
          natDec (v.natAbs % 10 ^ ccy_exp ccy))
        (by
          intro x hx
          rcases List.mem_append.mp hx with h | h
          · rcases lt_or_le v 0 with hv | hv
            · rw [if_pos hv] at h
              have : x = '-' := by simpa using h
              rw [this]
              decide
            · rw [if_neg (not_lt.mpr hv)] at h
              simp at h
          · exact (char_digit_facts x (hMd x h)).1)
      rw [hlist, hsplit.2, List.tail_cons, hpadlen]
  · -- no fractional part: exponent zero
    have hE0 : ccy_exp ccy = 0 := Nat.eq_zero_of_not_pos hE
    have hlist := fmt_amount_toList ccy v
    rw [if_neg hE, List.append_nil] at hlist
    have hcore : decNumCore (natDec (v.natAbs / 10 ^ ccy_exp ccy)) (ccy_exp ccy) =
        some v.natAbs := by
      rw [decNumCore_int_eval _ _ hMspec.1 hMspec.2.2.1, hMspec.2.1, hE0]
      rw [pow_zero, mul_one, Nat.div_one]
    constructor
    · unfold decNumValue
      rcases lt_or_le v 0 with hv | hv
      · rw [if_pos hv] at hlist
        rw [if_pos (by rw [hlist]; rfl)]
        rw [show (fmt_amount ⟨ccy, v⟩ false).toList.tail =
            natDec (v.natAbs / 10 ^ ccy_exp ccy) from by rw [hlist]; rfl]
        rw [hcore]
        show some (-((v.natAbs : Int))) = some v
        rw [habs, abs_of_neg hv, neg_neg]
      · rw [if_neg (not_lt.mpr hv)] at hlist
        rw [List.nil_append] at hlist
        have hhead : (fmt_amount ⟨ccy, v⟩ false).toList.head? ≠ some '-' := by
          rw [hlist]
          exact head?_digits_ne _ hMd '-' (by decide)
        rw [if_neg hhead, hlist, hcore]
        show some ((v.natAbs : Int)) = some v
        rw [habs, abs_of_nonneg hv]
    · intro hcon
      exact absurd hcon hE

/-- C10: for every currency and every well-formed decimal string `s` (optional
leading minus, digits, optionally a dot and at most `ccy_exp ccy` fractional
digits) whose value fits the signed 64-bit range, parsing yields exactly the
spec-level value, and formatting that value produces a text that reads back to
the same value with a fixed-width fractional part of exactly `ccy_exp ccy`
digits (no trailing-zero trimming). -/
theorem C10_format_parse_roundtrip :
    ∀ (s ccy : String) (v : Int),
      decNumValue s (ccy_exp ccy) = some v → |v| ≤ INT64_MAX →
      parse_decimal s ccy = v ∧
      decNumValue (fmt_amount ⟨ccy, v⟩ false) (ccy_exp ccy) = some v ∧
      (0 < ccy_exp ccy →
        (((fmt_amount ⟨ccy, v⟩ false).toList.dropWhile (fun c => c ≠ '.')).tail).length =
          ccy_exp ccy) :=
  fun s ccy v h hr =>
    ⟨parse_decimal_wf s ccy v h hr, (fmt_roundtrip ccy v).1, (fmt_roundtrip ccy v).2⟩

/-- Witness for C10 at the concrete input `"12.34"` / EUR. -/
theorem C10_format_parse_roundtrip_witness :
    decNumValue "12.34" (ccy_exp "EUR") = some 1234 ∧
    |(1234:Int)| ≤ INT64_MAX ∧
    (parse_decimal "12.34" "EUR" = 1234 ∧
      decNumValue (fmt_amount ⟨"EUR", 1234⟩ false) (ccy_exp "EUR") = some 1234 ∧
      (0 < ccy_exp "EUR" →
        (((fmt_amount ⟨"EUR", 1234⟩ false).toList.dropWhile
          (fun c => c ≠ '.')).tail).length = ccy_exp "EUR")) :=
  ⟨by decide, by decide,
    C10_format_parse_roundtrip "12.34" "EUR" 1234 (by decide) (by decide)⟩

end Camt
